import Mathlib

/-!
A verification development for the site-crawler / change-notifier repository.

Python strings are modelled as `List Char`; `Option` models Python exceptions
(`none` = the call raises).  The URL machinery of the scripts is built on
CPython's `urllib.parse` (version 3.11), which is embedded below
(`pyUrlsplit`, `pyUrlparse`, `pyUrlunsplit`, `pyUrlunparse`, `pyUrljoin`)
following that library's source.  Two deliberate simplifications, marked at
their use sites: the IPv6/IPvFuture literal validation of bracketed hosts and
the NFKC check for non-ASCII netlocs are not modelled (every URL considered in
the theorems below is bracket-free ASCII), and `str.lower()` / `str.strip()`
are modelled on their ASCII behaviour.
-/

namespace Crawler

/-- Python `\s` (ASCII part): the whitespace class used by `str.strip()` and
`re.sub(r'\s+', ...)`. -/
def pyIsSpace (c : Char) : Bool :=
  c = ' ' || c = '\t' || c = '\n' || c = '\r' || c = '\x0b' || c = '\x0c'

/-- Python `str.strip()` with no arguments (ASCII whitespace). -/
def pyStrip (l : List Char) : List Char :=
  ((l.dropWhile pyIsSpace).reverse.dropWhile pyIsSpace).reverse

/-- ASCII `str.lower()`, character-wise. -/
def asciiLowerChar (c : Char) : Char :=
  match c with
  | 'A' => 'a' | 'B' => 'b' | 'C' => 'c' | 'D' => 'd' | 'E' => 'e' | 'F' => 'f'
  | 'G' => 'g' | 'H' => 'h' | 'I' => 'i' | 'J' => 'j' | 'K' => 'k' | 'L' => 'l'
  | 'M' => 'm' | 'N' => 'n' | 'O' => 'o' | 'P' => 'p' | 'Q' => 'q' | 'R' => 'r'
  | 'S' => 's' | 'T' => 't' | 'U' => 'u' | 'V' => 'v' | 'W' => 'w' | 'X' => 'x'
  | 'Y' => 'y' | 'Z' => 'z'
  | other => other

/-- `str.lower()` on a whole string (ASCII). -/
def pyLower (l : List Char) : List Char := l.map asciiLowerChar

/-- `url.split(c, 1)` split into (before, after); when `c` is absent the
second component is empty, matching the `if c in url` guards of
`urllib.parse.urlsplit`. -/
def splitOnce (c : Char) (l : List Char) : List Char × List Char :=
  (l.takeWhile (· != c), (l.dropWhile (· != c)).drop 1)

/-- Python `str.find(c, start)` restricted to found-or-not. -/
def findIdxFrom (c : Char) (start : Nat) (l : List Char) : Option Nat :=
  ((l.drop start).findIdx? (· == c)).map (· + start)

/-- Python `str.rfind(c)` restricted to found-or-not. -/
def rfindIdx (c : Char) (l : List Char) : Option Nat :=
  (l.reverse.findIdx? (· == c)).map (fun k => l.length - 1 - k)

/-- Python `str.split(sep)` for a one-character separator: always returns at
least one (possibly empty) piece. -/
def pySplit (sep : Char) : List Char → List (List Char)
  | [] => [[]]
  | c :: rest =>
    if c = sep then [] :: pySplit sep rest
    else
      match pySplit sep rest with
      | [] => [[c]]
      | g :: gs => (c :: g) :: gs

/-- Python `sep.join(pieces)` for a one-character separator. -/
def joinWith (sep : Char) : List (List Char) → List Char
  | [] => []
  | [x] => x
  | x :: y :: rest => x ++ sep :: joinWith sep (y :: rest)

/-! ### Model of CPython 3.11 `urllib.parse` -/

/-- `urllib.parse.uses_relative`. -/
def usesRelative : List (List Char) :=
  [[], "ftp".data, "http".data, "gopher".data, "nntp".data, "imap".data,
   "wais".data, "file".data, "https".data, "shttp".data, "mms".data,
   "prospero".data, "rtsp".data, "rtsps".data, "rtspu".data, "sftp".data,
   "svn".data, "svn+ssh".data, "ws".data, "wss".data]

/-- `urllib.parse.uses_netloc`. -/
def usesNetloc : List (List Char) :=
  [[], "ftp".data, "http".data, "gopher".data, "nntp".data, "telnet".data,
   "imap".data, "wais".data, "file".data, "mms".data, "https".data,
   "shttp".data, "snews".data, "prospero".data, "rtsp".data, "rtsps".data,
   "rtspu".data, "rsync".data, "svn".data, "svn+ssh".data, "sftp".data,
   "nfs".data, "git".data, "git+ssh".data, "ws".data, "wss".data]

/-- `urllib.parse.uses_params`. -/
def usesParams : List (List Char) :=
  [[], "ftp".data, "hdl".data, "prospero".data, "http".data, "imap".data,
   "https".data, "shttp".data, "rtsp".data, "rtsps".data, "rtspu".data,
   "sip".data, "sips".data, "mms".data, "sftp".data, "tel".data]

/-- Membership in `urllib.parse.scheme_chars` (ASCII letters, digits, `+-.`). -/
def isSchemeChar (c : Char) : Bool :=
  c.isAlpha || c.isDigit || c = '+' || c = '-' || c = '.'

/-- `_WHATWG_C0_CONTROL_OR_SPACE` membership: C0 controls and the space. -/
def isC0OrSpace (c : Char) : Bool := c.toNat ≤ 32

/-- `_UNSAFE_URL_BYTES_TO_REMOVE` membership: tab, CR, LF. -/
def isUnsafeUrlByte (c : Char) : Bool := c = '\t' || c = '\r' || c = '\n'

/-- The WHATWG sanitisation `urlsplit` applies to its `url` argument:
left-strip C0 controls and spaces, then delete every tab/CR/LF. -/
def sanitizeUrl (l : List Char) : List Char :=
  (l.dropWhile isC0OrSpace).filter (fun c => !isUnsafeUrlByte c)

/-- The sanitisation `urlsplit` applies to its `scheme` argument
(strip both ends, then delete tab/CR/LF). -/
def sanitizeSchemeArg (l : List Char) : List Char :=
  (((l.dropWhile isC0OrSpace).reverse.dropWhile isC0OrSpace).reverse).filter
    (fun c => !isUnsafeUrlByte c)

/-- Result of `urlsplit`: `<scheme>://<netloc>/<path>?<query>#<fragment>`. -/
structure SplitResult where
  scheme : List Char
  netloc : List Char
  path : List Char
  query : List Char
  fragment : List Char
deriving DecidableEq, Repr

/-- Characters ending the netloc in `_splitnetloc` ( `/`, `?`, `#` ). -/
def isNotNetlocDelim (c : Char) : Bool := c != '/' && c != '?' && c != '#'

/-- The scheme-detection step of `urlsplit`: `i = url.find(':')`, check the
first character is an ASCII letter and everything before the colon is a
scheme character, else fall back to the (sanitised) default. -/
def splitScheme (url1 sdef : List Char) : List Char × List Char :=
  match url1.findIdx? (· == ':') with
  | some i =>
    if 0 < i ∧ (url1.headD ' ').isAlpha ∧ (url1.take i).all isSchemeChar then
      ((url1.take i).map asciiLowerChar, url1.drop (i + 1))
    else (sdef, url1)
  | none => (sdef, url1)

/-- The `_splitnetloc` step: when the remainder starts with `//`, the netloc
runs up to the first `/`, `?` or `#`. -/
def splitNetloc (rest : List Char) : List Char × List Char :=
  if rest.take 2 = ['/', '/'] then
    ((rest.drop 2).takeWhile isNotNetlocDelim, (rest.drop 2).dropWhile isNotNetlocDelim)
  else ([], rest)

/-- `urllib.parse.urlsplit(url, scheme)` with `allow_fragments=True` (the only
form the scripts use).  `none` models the `ValueError` raised for a netloc
with unbalanced brackets.  The IPv6/IPvFuture validation of balanced bracketed
hosts (`_check_bracketed_host`) and the NFKC check for non-ASCII netlocs
(`_checknetloc`, a no-op for ASCII) are not modelled. -/
def pyUrlsplit (url0 schemeDefault : List Char) : Option SplitResult :=
  let sp := splitScheme (sanitizeUrl url0) (sanitizeSchemeArg schemeDefault)
  let np := splitNetloc sp.2
  if ('[' ∈ np.1 ∧ ']' ∉ np.1) ∨ (']' ∈ np.1 ∧ '[' ∉ np.1) then none
  else
    some ⟨sp.1, np.1, (splitOnce '?' (splitOnce '#' np.2).1).1,
      (splitOnce '?' (splitOnce '#' np.2).1).2, (splitOnce '#' np.2).2⟩

/-- Result of `urlparse`: `urlsplit` plus the `params` component. -/
structure ParseResult where
  scheme : List Char
  netloc : List Char
  path : List Char
  params : List Char
  query : List Char
  fragment : List Char
deriving DecidableEq, Repr

/-- `urllib.parse._splitparams` (the caller guarantees `';' ∈ url`). -/
def pySplitparams (p : List Char) : List Char × List Char :=
  match rfindIdx '/' p with
  | some j =>
    match findIdxFrom ';' j p with
    | some i => (p.take i, p.drop (i + 1))
    | none => (p, [])
  | none =>
    match p.findIdx? (· == ';') with
    | some i => (p.take i, p.drop (i + 1))
    | none => (p, [])

/-- The params-splitting step of `urlparse` on top of a split result. -/
def paramsSplit (r : SplitResult) : ParseResult :=
  if r.scheme ∈ usesParams ∧ ';' ∈ r.path then
    ⟨r.scheme, r.netloc, (pySplitparams r.path).1, (pySplitparams r.path).2,
      r.query, r.fragment⟩
  else ⟨r.scheme, r.netloc, r.path, [], r.query, r.fragment⟩

/-- `urllib.parse.urlparse(url, scheme)` with `allow_fragments=True`. -/
def pyUrlparse (url sdef : List Char) : Option ParseResult :=
  (pyUrlsplit url sdef).map paramsSplit

/-- `urllib.parse.urlunsplit` (CPython 3.11 condition on the `//` prefix). -/
def pyUrlunsplit (scheme netloc path query fragment : List Char) : List Char :=
  let u1 :=
    if netloc ≠ [] ∨ (scheme ≠ [] ∧ scheme ∈ usesNetloc ∧ path.take 2 ≠ ['/', '/']) then
      ['/', '/'] ++ netloc ++ (if path ≠ [] ∧ path.take 1 ≠ ['/'] then '/' :: path else path)
    else path
  let u2 := if scheme ≠ [] then scheme ++ ':' :: u1 else u1
  let u3 := if query ≠ [] then u2 ++ '?' :: query else u2
  if fragment ≠ [] then u3 ++ '#' :: fragment else u3

/-- `urllib.parse.urlunparse`. -/
def pyUrlunparse (p : ParseResult) : List Char :=
  pyUrlunsplit p.scheme p.netloc
    (if p.params ≠ [] then p.path ++ ';' :: p.params else p.path) p.query p.fragment

/-- The `segments[1:-1] = filter(None, segments[1:-1])` step of `urljoin`:
drop empty segments, keeping the first and last elements. -/
def keepEndsFilter : List (List Char) → List (List Char)
  | [] => []
  | [x] => [x]
  | x :: y :: rest =>
    x :: (((y :: rest).dropLast.filter (fun s => s ≠ [])) ++ [(y :: rest).getLastD []])

/-- The `resolved_path` loop of `urljoin`: process `..` (pop, ignoring
underflow), `.` (skip) and ordinary segments (append). -/
def resolveSegments (acc : List (List Char)) : List (List Char) → List (List Char)
  | [] => acc
  | s :: rest =>
    if s = ['.', '.'] then resolveSegments acc.dropLast rest
    else if s = ['.'] then resolveSegments acc rest
    else resolveSegments (acc ++ [s]) rest

/-- The segments the relative-resolution part of `urljoin` works on:
the base path's directory parts prepended to the url path's parts, with
empty middle segments dropped — or just the url path's parts when the url
path is absolute. -/
def joinSegments (b u : ParseResult) : List (List Char) :=
  if u.path.take 1 = ['/'] then pySplit '/' u.path
  else
    keepEndsFilter
      ((if (pySplit '/' b.path).getLastD [] ≠ [] then (pySplit '/' b.path).dropLast
        else pySplit '/' b.path) ++ pySplit '/' u.path)

/-- The `resolved_path` computation of `urljoin`, joined back with `/`
(including the `or '/'` fallback and the trailing-`/` restoration after a
final `.` or `..` segment). -/
def joinResolvedPath (b u : ParseResult) : List Char :=
  let segments := joinSegments b u
  let resolved :=
    if segments.getLastD [] = ['.'] ∨ segments.getLastD [] = ['.', '.'] then
      resolveSegments [] segments ++ [[]]
    else resolveSegments [] segments
  if joinWith '/' resolved = [] then ['/'] else joinWith '/' resolved

/-- The pure part of `urljoin` once both arguments parsed. -/
def joinParsed (url : List Char) (b u : ParseResult) : List Char :=
  if ¬ (u.scheme = b.scheme ∧ u.scheme ∈ usesRelative) then url
  else if u.scheme ∈ usesNetloc ∧ u.netloc ≠ [] then
    pyUrlunparse ⟨u.scheme, u.netloc, u.path, u.params, u.query, u.fragment⟩
  else if u.path = [] ∧ u.params = [] then
    pyUrlunparse ⟨u.scheme,
      (if u.scheme ∈ usesNetloc then b.netloc else u.netloc), b.path, b.params,
      (if u.query = [] then b.query else u.query), u.fragment⟩
  else
    pyUrlunparse ⟨u.scheme,
      (if u.scheme ∈ usesNetloc then b.netloc else u.netloc),
      joinResolvedPath b u, u.params, u.query, u.fragment⟩

/-- `urllib.parse.urljoin(base, url)` (CPython 3.11, `allow_fragments=True`). -/
def pyUrljoin (base url : List Char) : Option (List Char) :=
  if base = [] then some url
  else if url = [] then some base
  else
    (pyUrlparse base []).bind (fun b =>
      (pyUrlparse url b.scheme).map (fun u => joinParsed url b u))

/-! ### URL utilities of `src/3.py` -/

/-- `SKIP_EXTENSIONS` (src/3.py:57, identical in src/mains.py:62). -/
def SKIP_EXTENSIONS : List (List Char) :=
  [".jpg".data, ".jpeg".data, ".png".data, ".gif".data, ".webp".data,
   ".svg".data, ".pdf".data, ".zip".data, ".rar".data, ".7z".data,
   ".tar".data, ".gz".data, ".mp3".data, ".wav".data, ".mp4".data,
   ".avi".data, ".mov".data, ".ogg".data, ".woff".data, ".woff2".data,
   ".ttf".data, ".eot".data, ".ico".data]

/-- `BLOCKLIST_PATH_PREFIXES` (src/3.py:52). -/
def BLOCKLIST_PATH_PREFIXES : List (List Char) :=
  ["/wp-admin".data, "/admin".data, "/wp-login.php".data, "/cart".data, "/wp".data]

/-- `ALLOWLIST_PATH_PREFIXES` (src/3.py:51). -/
def ALLOWLIST_PATH_PREFIXES : List (List Char) := []

/-- `MAX_RETRY` (src/3.py:62). -/
def MAX_RETRY : Nat := 2

/-- `is_same_domain` (src/3.py:115-123): strict equality of the parsed netloc
with the origin authority; the `except` clause turns a parse error into
`False`. -/
def is_same_domain (url base_netloc : List Char) : Bool :=
  match pyUrlparse url [] with
  | none => false
  | some p => p.netloc == base_netloc

/-- The default-document suffixes of `normalize_url` (src/3.py:134). -/
def defaultDocSuffixes : List (List Char) :=
  ["/index.php".data, "/index.html".data, "/home.html".data, "/default.html".data]

/-- `path.endswith(('/index.php', '/index.html', '/home.html', '/default.html'))`. -/
def endsWithDefaultDoc (path : List Char) : Bool :=
  defaultDocSuffixes.any (fun d => d.isSuffixOf path)

/-- `abs_url.rstrip('/')`. -/
def rstripSlashes (l : List Char) : List Char :=
  (l.reverse.dropWhile (· == '/')).reverse

/-- `s.endswith('/')`. -/
def endsWithSlash (l : List Char) : Bool := l.getLastD ' ' == '/'

/-- The default-document replacement step of `normalize_url`: if the parsed
path ends in a default-document name, rebuild the URL with the path cut
after its last `/`; otherwise keep the resolved URL unchanged. -/
def normReplaceDoc (abs1 : List Char) (p : ParseResult) : List Char :=
  if endsWithDefaultDoc p.path then
    pyUrlunparse ⟨p.scheme, p.netloc,
      (match rfindIdx '/' p.path with
       | some i => p.path.take (i + 1)
       | none => []), p.params, p.query, p.fragment⟩
  else abs1

/-- The trailing-slash step of `normalize_url`: when the URL ends in `/`,
re-parse it and strip every trailing slash unless the string is no longer
than `scheme + "://"`. -/
def normStage2 (abs2 : List Char) : Option (List Char) :=
  if endsWithSlash abs2 then
    (pyUrlparse abs2 []).map (fun p2 =>
      if abs2.length > p2.scheme.length + 3 then rstripSlashes abs2 else abs2)
  else some abs2

/-- `normalize_url(href, base)` (src/3.py:125-140): strip the href, drop its
fragment part, resolve against the base with `urljoin`, replace a
default-document path by its directory, and strip all trailing slashes when
the string is longer than `scheme + "://"`.  `none` models an uncaught
exception escaping from the `urllib.parse` calls. -/
def normalize_url (href base : List Char) : Option (List Char) :=
  if href = [] then some []
  else
    (pyUrljoin base ((pyStrip href).takeWhile (· != '#'))).bind (fun abs1 =>
      (pyUrlparse abs1 []).bind (fun p => normStage2 (normReplaceDoc abs1 p)))

/-- `path_allowed(path)` (src/3.py:142-153) with the two global prefix lists
passed explicitly (spec §9 treats them as configuration). -/
def path_allowed (block allow : List (List Char)) (path : List Char) : Bool :=
  let p := if path.take 1 = ['/'] then path else '/' :: path
  if block.any (fun b => b ≠ [] && b.isPrefixOf p) then false
  else if allow.isEmpty then true
  else allow.any (fun a => a.isPrefixOf p)

/-- `looks_like_html(url)` (src/3.py:155-160); `none` models a parse error
escaping (the call is not guarded by try/except). -/
def looks_like_html (url : List Char) : Option Bool :=
  match pyUrlparse url [] with
  | none => none
  | some p =>
    some (SKIP_EXTENSIONS.all (fun e => !e.isSuffixOf (pyLower p.path)))

/-! ### Filename utilities -/

/-- The complement of `INVALID_FILENAME_CHARS = re.compile(r'[^A-Za-z0-9\-_\. ]+')`
(src/3.py:67). -/
def isAllowedFilenameChar (c : Char) : Bool :=
  c.isAlpha || c.isDigit || c = '-' || c = '_' || c = '.' || c = ' '

/-- `re.sub(r'\s+', ' ', s)`: replace each maximal whitespace run by one
space.  `inRun` records whether the previous character was part of a
whitespace run already replaced. -/
def collapseWsAux (inRun : Bool) : List Char → List Char
  | [] => []
  | c :: rest =>
    if pyIsSpace c then
      if inRun then collapseWsAux true rest
      else ' ' :: collapseWsAux true rest
    else c :: collapseWsAux false rest

/-- `re.sub(r'\s+', ' ', s)`. -/
def collapseWs (l : List Char) : List Char := collapseWsAux false l

/-- `INVALID_FILENAME_CHARS.sub('_', s)`: replace each maximal run of
disallowed characters by one underscore; `inRun` records whether the previous
character was part of a disallowed run already replaced. -/
def subInvalidAux (inRun : Bool) : List Char → List Char
  | [] => []
  | c :: rest =>
    if isAllowedFilenameChar c then c :: subInvalidAux false rest
    else
      if inRun then subInvalidAux true rest
      else '_' :: subInvalidAux true rest

/-- `INVALID_FILENAME_CHARS.sub('_', s)`. -/
def subInvalid (l : List Char) : List Char := subInvalidAux false l

/-- `s.rstrip('_')`. -/
def rstripUnderscores (l : List Char) : List Char :=
  (l.reverse.dropWhile (· == '_')).reverse

/-- The unbounded part of `sanitize_filename`: default empty input to
`untitled`, unescape, strip, collapse whitespace, replace disallowed runs. -/
def sanitizeCore (unescape : List Char → List Char) (s : List Char) : List Char :=
  subInvalid (collapseWs (pyStrip (unescape
    (if s = [] then ("untitled").data else s))))

/-- `sanitize_filename(s, max_len)` (src/3.py:73-82, identical in
src/mains.py:78-86).  `html.unescape` is an external collaborator and is
passed in as an abstract function. -/
def sanitize_filename (unescape : List Char → List Char) (s : List Char)
    (max_len : Option Nat) : List Char :=
  match max_len with
  | some m =>
    if m ≠ 0 ∧ (sanitizeCore unescape s).length > m then
      rstripUnderscores ((sanitizeCore unescape s).take m)
    else sanitizeCore unescape s
  | none => sanitizeCore unescape s

/-- `s.strip('/')`. -/
def stripSlashBoth (l : List Char) : List Char :=
  ((l.dropWhile (· == '/')).reverse.dropWhile (· == '/')).reverse

/-- `url_to_filename(url, title)` (src/3.py:84-107).  `urlHash` abstracts
`hashlib.md5(url).hexdigest()`; the code keeps its first 8 characters.
A `title` of `none` models Python `None`, and the `if title:` test also
rejects an empty title string. -/
def url_to_filename (unescape urlHash : List Char → List Char)
    (url : List Char) (title : Option (List Char)) : Option (List Char) :=
  let uh := (urlHash url).take 8
  match pyUrlparse url [] with
  | none => none
  | some p =>
    let path := stripSlashBoth p.path
    let candidate :=
      if path = [] ∨ path = "index.php".data ∨ path = "index.html".data then
        sanitize_filename unescape (if p.netloc ≠ [] then p.netloc else "root".data) (some 188)
      else sanitize_filename unescape path (some 188)
    let base :=
      match title with
      | some t => if t ≠ [] then sanitize_filename unescape t (some 188) else candidate
      | none => candidate
    some (base ++ "__".data ++ uh ++ ".md".data)

/-- `get_page_name(url)` (src/s.py:11-16, identical in src/new.py:18-23):
the stripped path with `/` replaced by `-` plus `.md`, or `index.md` for an
empty path. -/
def get_page_name (url : List Char) : Option (List Char) :=
  match pyUrlparse url [] with
  | none => none
  | some p =>
    let path := stripSlashBoth p.path
    if path = [] then some ("index.md".data)
    else some ((path.map (fun c => if c = '/' then '-' else c)) ++ ".md".data)

/-! ### Python dict model

A `dict` is an association list with unique keys; `dictGet` is `d.get(k)` /
`d[k]`, `dictInsert` is `d[k] = v` (updating in place, preserving insertion
order, else appending). -/

/-- `d.get(k)`: first binding of `k`. -/
def dictGet {α β : Type} [DecidableEq α] (k : α) : List (α × β) → Option β
  | [] => none
  | (k', v) :: rest => if k' = k then some v else dictGet k rest

/-- `d[k] = v`. -/
def dictInsert {α β : Type} [DecidableEq α] (k : α) (v : β) :
    List (α × β) → List (α × β)
  | [] => [(k, v)]
  | (k', v') :: rest =>
    if k' = k then (k, v) :: rest else (k', v') :: dictInsert k v rest

/-! ### Change detector (`detect_changes`, src/3.py:403-431) -/

/-- Python string `<` (lexicographic by code point). -/
def ltChars : List Char → List Char → Bool
  | [], [] => false
  | [], _ :: _ => true
  | _ :: _, [] => false
  | x :: xs, y :: ys => if x < y then true else if y < x then false else ltChars xs ys

/-- Non-strict key order used for sorting. -/
def leChars (a b : List Char) : Bool := ltChars a b || a == b

/-- Insertion step of `sorted(...)`. -/
def insertSortedKey (x : List Char) : List (List Char) → List (List Char)
  | [] => [x]
  | y :: ys => if leChars x y then x :: y :: ys else y :: insertSortedKey x ys

/-- `sorted(keys)`. -/
def sortKeys (l : List (List Char)) : List (List Char) :=
  l.foldr insertSortedKey []

/-- A change record: `{"type": ..., "filename": ..., "content": ...}`.
The `content` carried by `added`/`updated` is the UTF-8 encoding of the new
content string, modelled as the string itself. -/
inductive ChangeRecord where
  | added (filename content : List Char)
  | updated (filename content : List Char)
  | deleted (filename : List Char)
deriving DecidableEq, Repr

/-- The filename of a change record. -/
def ChangeRecord.filename : ChangeRecord → List Char
  | .added f _ => f
  | .updated f _ => f
  | .deleted f => f

/-- The per-filename classification of the `detect_changes` loop body. -/
def classifyFile (old new : List (List Char × List Char)) (f : List Char) :
    Option ChangeRecord :=
  match dictGet f old, dictGet f new with
  | none, some c => some (.added f c)
  | some _, none => some (.deleted f)
  | some oc, some nc => if oc ≠ nc then some (.updated f nc) else none
  | none, none => none

/-- `detect_changes(old_pages, new_pages)` (src/3.py:403-431): iterate over
`sorted(set(old) | set(new))` and classify each filename. -/
def detect_changes (old new : List (List Char × List Char)) : List ChangeRecord :=
  (sortKeys ((old.map Prod.fst ++ new.map Prod.fst).dedup)).filterMap
    (classifyFile old new)

/-! ### Frontier & dedup engine (src/3.py:234-367)

The engine is modelled at the granularity the locks make atomic: the
visited-set test-and-set (lines 277-281, guarded by `visited_lock`) and the
dedup decision (lines 296-322, guarded by `content_hashes_lock` /
`crawled_files_lock`).  The run itself is modelled as the sequential
processing of a list of fetched pages, matching the configured
single-worker execution (`THREADS = 1`, src/3.py:44). -/

/-- The mutable run state owned by `crawl`. -/
structure CrawlState where
  visited : List (List Char)
  content_hashes : List (List Char × List Char)
  crawled_files : List (List Char × List Char)
  crawled_urls_to_filenames : List (List Char × List Char)
deriving DecidableEq, Repr

/-- The empty state of a fresh run (src/3.py:245-257). -/
def initState : CrawlState := ⟨[], [], [], []⟩

/-- The dedup decision of the worker (src/3.py:296-322) for a page with
canonical URL `url` whose rendered markdown is `content`.  `md5` abstracts
`hashlib.md5(...).hexdigest()`; `fname` abstracts the filename
`save_markdown` assigns to the URL. -/
def dedupStep (md5 fname : List Char → List Char) (s : CrawlState)
    (url content : List Char) : CrawlState :=
  let h := md5 content
  match dictGet h s.content_hashes with
  | some owner =>
    match dictGet owner s.crawled_urls_to_filenames with
    | some fn =>
      { s with crawled_urls_to_filenames := dictInsert url fn s.crawled_urls_to_filenames }
    | none => s
  | none =>
    let f := fname url
    { s with
      content_hashes := dictInsert h url s.content_hashes,
      crawled_files := dictInsert f content s.crawled_files,
      crawled_urls_to_filenames := dictInsert url f s.crawled_urls_to_filenames }

/-- One complete page task: the visited test-and-set (src/3.py:277-281)
followed, for a fresh URL, by the dedup decision on the page's content. -/
def visitStep (md5 fname : List Char → List Char) (s : CrawlState)
    (page : List Char × List Char) : CrawlState :=
  if page.1 ∈ s.visited then s
  else dedupStep md5 fname { s with visited := page.1 :: s.visited } page.1 page.2

/-- A whole run over a list of fetched pages `(canonical URL, markdown)`. -/
def runCrawl (md5 fname : List Char → List Char)
    (pages : List (List Char × List Char)) : CrawlState :=
  pages.foldl (visitStep md5 fname) initState

/-! ### Visited-set race (src/3.py:277-281, src/mains.py:225-229) -/

/-- The atomic test-and-set a worker performs under `visited_lock`:
first component the set, second the number of accepted insertions. -/
def tryInsert (s : List (List Char) × Nat) (u : List Char) :
    List (List Char) × Nat :=
  if u ∈ s.1 then s else (u :: s.1, s.2 + 1)

/-- Any interleaving of racing workers is a sequence of atomic `tryInsert`
operations. -/
def runInserts (attempts : List (List Char)) : List (List Char) × Nat :=
  attempts.foldl tryInsert ([], 0)

/-! ### Page fetch with retry (`fetch_page_selenium`, src/3.py:173-190) -/

/-- Outcome of one Selenium attempt: a rendered page, a retryable failure
(`WebDriverException`/`TimeoutException`/`socket.timeout`), or an unexpected
exception (returns `None` at once). -/
inductive FetchAttempt where
  | ok (html : List Char)
  | transient
  | unexpected
deriving DecidableEq

/-- The retry loop `for attempt in range(1, MAX_RETRY + 1)`, also counting
the seconds slept in `time.sleep(1)` backoffs.  `attempts k` is the outcome
of the `k`-th attempt. -/
def fetchLoop (attempts : Nat → FetchAttempt) : Nat → Nat → Option (List Char) × Nat
  | attempt, sleeps =>
    if MAX_RETRY < attempt then (none, sleeps)
    else
      match attempts attempt with
      | .ok html => (some html, sleeps)
      | .transient => fetchLoop attempts (attempt + 1) (sleeps + 1)
      | .unexpected => (none, sleeps)
termination_by attempt _ => MAX_RETRY + 1 - attempt

/-- `fetch_page_selenium(url)`, given the per-attempt outcomes. -/
def fetch_page_selenium (attempts : Nat → FetchAttempt) : Option (List Char) × Nat :=
  fetchLoop attempts 1 0

/-- `html_to_markdown(html_text, source_url)` (src/3.py:205-212): a
provenance header naming the source URL followed by the `html2text`
rendering, which is external and abstracted as `handle`. -/
def html_to_markdown (handle : List Char → List Char) (html url : List Char) :
    List Char :=
  ("<!-- Source: ".data ++ url ++ " -->".data ++ ['\n', '\n']) ++ handle html

/-- `"<html" in html_text.lower()` (src/3.py:290). -/
def containsHtmlTag (html : List Char) : Bool :=
  decide ("<html".data <:+: pyLower html)

/-- The worker state: the shared crawl state plus the pending queue. -/
structure WorkerState where
  crawl : CrawlState
  queue : List (List Char)
deriving DecidableEq, Repr

/-- The link-enqueueing loop of the worker (src/3.py:324-333): domain check,
path check, re-normalisation, then enqueue when not yet visited.  `none`
models an exception escaping the worker thread. -/
def processLinks (base_netloc nurl : List Char) (visited : List (List Char))
    (q : List (List Char)) : List (List Char) → Option (List (List Char))
  | [] => some q
  | link :: rest =>
    if ¬ is_same_domain link base_netloc then
      processLinks base_netloc nurl visited q rest
    else
      match pyUrlparse link [] with
      | none => none
      | some lp =>
        if ¬ path_allowed BLOCKLIST_PATH_PREFIXES ALLOWLIST_PATH_PREFIXES
            (if lp.path = [] then ['/'] else lp.path) then
          processLinks base_netloc nurl visited q rest
        else
          match normalize_url link nurl with
          | none => none
          | some nlink =>
            if nlink ∈ visited then processLinks base_netloc nurl visited q rest
            else processLinks base_netloc nurl visited (q ++ [nlink]) rest

/-- One worker iteration on a dequeued URL (the body of `worker`,
src/3.py:262-334).  External collaborators are abstract: `fetch` is the
composite result of `fetch_page_selenium`, `handle` the `html2text`
rendering, `titleOf` the `<title>` extraction, `hrefsOf` the links
`extract_links` returns for the page's HTML (already normalised against the
page, src/3.py:195-203), `unescape`/`urlHash`/`md5sum` as above.  `none`
models an exception escaping the worker thread. -/
def crawlWorkerStep (unescape urlHash md5sum handle : List Char → List Char)
    (titleOf : List Char → Option (List Char))
    (fetch : List Char → Option (List Char))
    (hrefsOf : List Char → List (List Char))
    (start_url base_netloc : List Char)
    (s : WorkerState) (url : List Char) : Option WorkerState :=
  match normalize_url url start_url with
  | none => none
  | some nurl =>
    if ¬ is_same_domain nurl base_netloc then some s
    else if nurl ∈ s.crawl.visited then some s
    else
      let c1 : CrawlState := { s.crawl with visited := nurl :: s.crawl.visited }
      match looks_like_html nurl with
      | none => none
      | some isHtml =>
        if ¬ isHtml then some { s with crawl := c1 }
        else
          match fetch nurl with
          | none => some { s with crawl := c1 }
          | some html =>
            if ¬ containsHtmlTag html then some { s with crawl := c1 }
            else
              let md := html_to_markdown handle html nurl
              let h := md5sum md
              match dictGet h c1.content_hashes with
              | some owner =>
                let c2 :=
                  match dictGet owner c1.crawled_urls_to_filenames with
                  | some fn =>
                    { c1 with crawled_urls_to_filenames :=
                        dictInsert nurl fn c1.crawled_urls_to_filenames }
                  | none => c1
                some { s with crawl := c2 }
              | none =>
                match url_to_filename unescape urlHash nurl (titleOf html) with
                | none => none
                | some fn =>
                  let c2 :=
                    { c1 with
                      content_hashes := dictInsert h nurl c1.content_hashes,
                      crawled_files := dictInsert fn md c1.crawled_files,
                      crawled_urls_to_filenames :=
                        dictInsert nurl fn c1.crawled_urls_to_filenames }
                  match processLinks base_netloc nurl c2.visited s.queue (hrefsOf html) with
                  | none => none
                  | some q2 => some ⟨c2, q2⟩

/-- The composite scope filter applied to a canonical URL (spec §4.2): the
conjunction of the three checks the worker runs — `is_same_domain`
(src/3.py:272/325), `path_allowed` on the URL's path (src/3.py:327-328,
`link_parsed.path or "/"`), and `looks_like_html` (src/3.py:284).  `none`
models a parse error escaping the unguarded calls. -/
def scope_admit (block allow : List (List Char)) (url base_netloc : List Char) :
    Option Bool :=
  if ¬ is_same_domain url base_netloc then some false
  else
    match pyUrlparse url [] with
    | none => none
    | some p =>
      if ¬ path_allowed block allow (if p.path = [] then ['/'] else p.path) then
        some false
      else
        match looks_like_html url with
        | none => none
        | some h => some h

/-! ### Post-run cleanup (src/3.py:351-365) -/

/-- `f.lower().endswith(".md")`. -/
def isMdName (f : List Char) : Bool := ".md".data.isSuffixOf (pyLower f)

/-- The cleanup loop: delete from the output directory every `.md` file whose
name is not a key of `crawled_files`; `disk` is the directory listing. -/
def cleanupOutputDir (disk savedKeys : List (List Char)) : List (List Char) :=
  disk.filter (fun f => !isMdName f || savedKeys.contains f)

/-! ## Theorems

### The key order and sorting -/

theorem ltChars_irrefl (a : List Char) : ltChars a a = false := by
  induction a with
  | nil => rfl
  | cons c cs ih => simp [ltChars, ih]

theorem ltChars_cons_iff {u v : Char} {us vs : List Char} :
    ltChars (u :: us) (v :: vs) = true ↔ u < v ∨ (u = v ∧ ltChars us vs = true) := by
  simp only [ltChars]
  rcases lt_trichotomy u v with h | h | h
  · simp [h]
  · subst h
    simp [lt_irrefl]
  · rw [if_neg (lt_asymm h), if_pos h]
    simp [lt_asymm h, (ne_of_gt h : u ≠ v)]

theorem ltChars_trans {a b c : List Char} (h1 : ltChars a b = true)
    (h2 : ltChars b c = true) : ltChars a c = true := by
  induction a generalizing b c with
  | nil =>
    cases b with
    | nil => simp [ltChars] at h1
    | cons y ys =>
      cases c with
      | nil => simp [ltChars] at h2
      | cons z zs => simp [ltChars]
  | cons x xs ih =>
    cases b with
    | nil => simp [ltChars] at h1
    | cons y ys =>
      cases c with
      | nil => simp [ltChars] at h2
      | cons z zs =>
        rcases ltChars_cons_iff.mp h1 with hxy | ⟨hxy, h1'⟩
        · rcases ltChars_cons_iff.mp h2 with hyz | ⟨hyz, _⟩
          · exact ltChars_cons_iff.mpr (Or.inl (lt_trans hxy hyz))
          · exact ltChars_cons_iff.mpr (Or.inl (hyz ▸ hxy))
        · subst hxy
          rcases ltChars_cons_iff.mp h2 with hyz | ⟨hyz, h2'⟩
          · exact ltChars_cons_iff.mpr (Or.inl hyz)
          · exact ltChars_cons_iff.mpr (Or.inr ⟨hyz, ih h1' h2'⟩)

theorem ltChars_trichotomy (a b : List Char) :
    ltChars a b = true ∨ a = b ∨ ltChars b a = true := by
  induction a generalizing b with
  | nil => cases b <;> simp [ltChars]
  | cons x xs ih =>
    cases b with
    | nil => simp [ltChars]
    | cons y ys =>
      rcases lt_trichotomy x y with h | h | h
      · exact Or.inl (ltChars_cons_iff.mpr (Or.inl h))
      · subst h
        rcases ih ys with h' | h' | h'
        · exact Or.inl (ltChars_cons_iff.mpr (Or.inr ⟨rfl, h'⟩))
        · exact Or.inr (Or.inl (by rw [h']))
        · exact Or.inr (Or.inr (ltChars_cons_iff.mpr (Or.inr ⟨rfl, h'⟩)))
      · exact Or.inr (Or.inr (ltChars_cons_iff.mpr (Or.inl h)))

theorem ltChars_asymm {a b : List Char} (h : ltChars a b = true) :
    ltChars b a = false := by
  by_contra hb
  have h2 : ltChars b a = true := by
    cases hab : ltChars b a
    · exact absurd hab hb
    · rfl
  have := ltChars_trans h h2
  rw [ltChars_irrefl] at this
  exact Bool.false_ne_true this

theorem leChars_iff {a b : List Char} :
    leChars a b = true ↔ ltChars a b = true ∨ a = b := by
  simp [leChars]

theorem leChars_total (a b : List Char) : leChars a b = true ∨ leChars b a = true := by
  rcases ltChars_trichotomy a b with h | h | h
  · exact Or.inl (leChars_iff.mpr (Or.inl h))
  · exact Or.inl (leChars_iff.mpr (Or.inr h))
  · exact Or.inr (leChars_iff.mpr (Or.inl h))

theorem leChars_trans {a b c : List Char} (h1 : leChars a b = true)
    (h2 : leChars b c = true) : leChars a c = true := by
  rcases leChars_iff.mp h1 with h1' | rfl
  · rcases leChars_iff.mp h2 with h2' | rfl
    · exact leChars_iff.mpr (Or.inl (ltChars_trans h1' h2'))
    · exact leChars_iff.mpr (Or.inl h1')
  · exact h2

theorem leChars_antisymm {a b : List Char} (h1 : leChars a b = true)
    (h2 : leChars b a = true) : a = b := by
  rcases leChars_iff.mp h1 with h1' | rfl
  · rcases leChars_iff.mp h2 with h2' | rfl
    · exact absurd (ltChars_asymm h1') (by rw [h2']; simp)
    · rfl
  · rfl

theorem leChars_ne_lt {a b : List Char} (h1 : leChars a b = true) (h2 : a ≠ b) :
    ltChars a b = true := by
  rcases leChars_iff.mp h1 with h | h
  · exact h
  · exact absurd h h2

theorem mem_insertSortedKey {x y : List Char} {l : List (List Char)} :
    y ∈ insertSortedKey x l ↔ y = x ∨ y ∈ l := by
  induction l with
  | nil => simp [insertSortedKey]
  | cons z zs ih =>
    simp only [insertSortedKey]
    split
    · simp [List.mem_cons]
    · simp only [List.mem_cons, ih]
      tauto

theorem insertSortedKey_perm (x : List Char) (l : List (List Char)) :
    List.Perm (insertSortedKey x l) (x :: l) := by
  induction l with
  | nil => exact List.Perm.refl _
  | cons y ys ih =>
    simp only [insertSortedKey]
    split
    · exact List.Perm.refl _
    · exact (ih.cons y).trans (List.Perm.swap x y ys)

theorem sortKeys_perm (l : List (List Char)) : List.Perm (sortKeys l) l := by
  induction l with
  | nil => exact List.Perm.refl _
  | cons x xs ih => exact (insertSortedKey_perm x (sortKeys xs)).trans (ih.cons x)

theorem pairwise_insertSortedKey {x : List Char} {l : List (List Char)}
    (h : l.Pairwise (fun a b => leChars a b = true)) :
    (insertSortedKey x l).Pairwise (fun a b => leChars a b = true) := by
  induction l with
  | nil => simp [insertSortedKey]
  | cons y ys ih =>
    rcases List.pairwise_cons.mp h with ⟨hy, hys⟩
    simp only [insertSortedKey]
    split
    · next hxy =>
      refine List.pairwise_cons.mpr ⟨?_, h⟩
      intro z hz
      rcases List.mem_cons.mp hz with rfl | hz'
      · exact hxy
      · exact leChars_trans hxy (hy z hz')
    · next hxy =>
      have hyx : leChars y x = true := by
        rcases leChars_total x y with h' | h'
        · exact absurd h' hxy
        · exact h'
      refine List.pairwise_cons.mpr ⟨?_, ih hys⟩
      intro z hz
      rcases mem_insertSortedKey.mp hz with rfl | hz'
      · exact hyx
      · exact hy z hz'

theorem sortKeys_sorted (l : List (List Char)) :
    (sortKeys l).Pairwise (fun a b => leChars a b = true) := by
  induction l with
  | nil => simp [sortKeys]
  | cons x xs ih => exact pairwise_insertSortedKey ih

/-! ### Dictionary lemmas -/

theorem dictGet_eq_none_iff {α β : Type} [DecidableEq α] {k : α} {d : List (α × β)} :
    dictGet k d = none ↔ k ∉ d.map Prod.fst := by
  induction d with
  | nil => simp [dictGet]
  | cons p rest ih =>
    obtain ⟨k', v⟩ := p
    by_cases hk : k' = k
    · subst hk
      simp [dictGet]
    · simp only [dictGet, if_neg hk, List.map_cons, List.mem_cons, ih]
      have : ¬ k = k' := fun h => hk h.symm
      tauto

theorem dictGet_some_mem {α β : Type} [DecidableEq α] {k : α} {v : β}
    {d : List (α × β)} (h : dictGet k d = some v) : (k, v) ∈ d := by
  induction d with
  | nil => simp [dictGet] at h
  | cons p rest ih =>
    obtain ⟨k', v'⟩ := p
    by_cases hk : k' = k
    · subst hk
      rw [dictGet, if_pos rfl] at h
      injection h with h
      subst h
      exact List.mem_cons_self _ _
    · rw [dictGet, if_neg hk] at h
      exact List.mem_cons_of_mem _ (ih h)

theorem dictGet_of_mem_nodup {α β : Type} [DecidableEq α] {k : α} {v : β}
    {d : List (α × β)} (hn : (d.map Prod.fst).Nodup) (h : (k, v) ∈ d) :
    dictGet k d = some v := by
  induction d with
  | nil => simp at h
  | cons p rest ih =>
    obtain ⟨k', v'⟩ := p
    rcases List.mem_cons.mp h with heq | hmem
    · injection heq with h1 h2
      subst h1
      subst h2
      rw [dictGet, if_pos rfl]
    · have hk : k' ≠ k := by
        intro hkk
        subst hkk
        have : k' ∈ rest.map Prod.fst := List.mem_map_of_mem Prod.fst hmem
        exact (List.nodup_cons.mp hn).1 this
      rw [dictGet, if_neg hk]
      exact ih (List.nodup_cons.mp hn).2 hmem

theorem dictGet_perm {α β : Type} [DecidableEq α] {d d' : List (α × β)}
    (h : List.Perm d d') (hn : (d.map Prod.fst).Nodup) (k : α) :
    dictGet k d = dictGet k d' := by
  cases hd : dictGet k d with
  | none =>
    have hd' : dictGet k d' = none := by
      rw [dictGet_eq_none_iff] at hd ⊢
      exact fun hmem => hd ((h.map Prod.fst).mem_iff.mpr hmem)
    rw [hd']
  | some v =>
    have hm' : (k, v) ∈ d' := h.mem_iff.mp (dictGet_some_mem hd)
    have hn' : (d'.map Prod.fst).Nodup := ((h.map Prod.fst).nodup_iff).mp hn
    rw [dictGet_of_mem_nodup hn' hm']

/-! ### C3 helper lemmas -/

theorem classifyFile_filename {old new : List (List Char × List Char)}
    {f : List Char} {r : ChangeRecord} (h : classifyFile old new f = some r) :
    r.filename = f := by
  unfold classifyFile at h
  split at h
  · injection h with h
    subst h
    rfl
  · injection h with h
    subst h
    rfl
  · split at h
    · injection h with h
      subst h
      rfl
    · exact absurd h (by simp)
  · exact absurd h (by simp)

theorem classifyFile_eq_some_iff {old new : List (List Char × List Char)}
    {f : List Char} {r : ChangeRecord} :
    classifyFile old new f = some r ↔
      ((∃ c, r = ChangeRecord.added f c ∧
          dictGet f old = none ∧ dictGet f new = some c) ∨
       (∃ oc, r = ChangeRecord.deleted f ∧
          dictGet f old = some oc ∧ dictGet f new = none) ∨
       (∃ oc nc, r = ChangeRecord.updated f nc ∧
          dictGet f old = some oc ∧ dictGet f new = some nc ∧ oc ≠ nc)) := by
  unfold classifyFile
  cases ho : dictGet f old <;> cases hn : dictGet f new <;>
    simp [ho, hn, eq_comm]
  exact ⟨fun ⟨hne, hr⟩ => ⟨_, _, hr, rfl, rfl, hne⟩,
    fun ⟨oc, nc, hr, h1, h2, hne⟩ => by
      subst h1
      subst h2
      exact ⟨hne, hr⟩⟩

/-- C3: for every pair of filename-to-content mappings, `detect_changes`
classifies each filename of the key union into exactly one of
added / updated / deleted / no-record: a record is emitted precisely for a
filename only in `new` (an `added` record carrying the new content), only in
`old` (a `deleted` record with no content), or in both with differing
contents (an `updated` record carrying the full new content); the output is
strictly sorted by filename (hence has at most one record per filename),
`detect_changes A A = []`, and the result is invariant under reordering of
the input mappings. -/
theorem c3_detect_changes_classification :
    (∀ old new r, r ∈ detect_changes old new ↔
      ((∃ f c, r = ChangeRecord.added f c ∧
          dictGet f old = none ∧ dictGet f new = some c) ∨
       (∃ f oc, r = ChangeRecord.deleted f ∧
          dictGet f old = some oc ∧ dictGet f new = none) ∨
       (∃ f oc nc, r = ChangeRecord.updated f nc ∧
          dictGet f old = some oc ∧ dictGet f new = some nc ∧ oc ≠ nc))) ∧
    (∀ old new, (detect_changes old new).Pairwise
      (fun r1 r2 => ltChars r1.filename r2.filename = true)) ∧
    (∀ a, detect_changes a a = []) ∧
    (∀ old old' new new', List.Perm old old' → List.Perm new new' →
      (old.map Prod.fst).Nodup → (new.map Prod.fst).Nodup →
      detect_changes old new = detect_changes old' new') := by
  refine ⟨?_, ?_, ?_, ?_⟩
  · intro old new r
    rw [detect_changes, List.mem_filterMap]
    constructor
    · rintro ⟨f, _, hc⟩
      rcases classifyFile_eq_some_iff.mp hc with
        ⟨c, hr, ho, hn⟩ | ⟨oc, hr, ho, hn⟩ | ⟨oc, nc, hr, ho, hn, hne⟩
      · exact Or.inl ⟨f, c, hr, ho, hn⟩
      · exact Or.inr (Or.inl ⟨f, oc, hr, ho, hn⟩)
      · exact Or.inr (Or.inr ⟨f, oc, nc, hr, ho, hn, hne⟩)
    · have hmem : ∀ f : List Char,
          f ∈ old.map Prod.fst ∨ f ∈ new.map Prod.fst →
          f ∈ sortKeys ((old.map Prod.fst ++ new.map Prod.fst).dedup) := by
        intro f hf
        exact (sortKeys_perm _).mem_iff.mpr
          (List.mem_dedup.mpr (List.mem_append.mpr hf))
      rintro (⟨f, c, hr, ho, hn⟩ | ⟨f, oc, hr, ho, hn⟩ | ⟨f, oc, nc, hr, ho, hn, hne⟩)
      · exact ⟨f, hmem f (Or.inr (List.mem_map_of_mem Prod.fst (dictGet_some_mem hn))),
          classifyFile_eq_some_iff.mpr (Or.inl ⟨c, hr, ho, hn⟩)⟩
      · exact ⟨f, hmem f (Or.inl (List.mem_map_of_mem Prod.fst (dictGet_some_mem ho))),
          classifyFile_eq_some_iff.mpr (Or.inr (Or.inl ⟨oc, hr, ho, hn⟩))⟩
      · exact ⟨f, hmem f (Or.inl (List.mem_map_of_mem Prod.fst (dictGet_some_mem ho))),
          classifyFile_eq_some_iff.mpr (Or.inr (Or.inr ⟨oc, nc, hr, ho, hn, hne⟩))⟩
  · intro old new
    have h1 := sortKeys_sorted ((old.map Prod.fst ++ new.map Prod.fst).dedup)
    have h2 : (sortKeys ((old.map Prod.fst ++ new.map Prod.fst).dedup)).Nodup :=
      ((sortKeys_perm _).nodup_iff).mpr (List.nodup_dedup _)
    have h3 := (h1.and h2).imp
      (fun {a b} h => leChars_ne_lt h.1 h.2)
    exact h3.filterMap _ (fun a a' hlt r hr r' hr' => by
      rw [classifyFile_filename (Option.mem_def.mp hr),
        classifyFile_filename (Option.mem_def.mp hr')]
      exact hlt)
  · intro a
    rw [detect_changes, List.filterMap_eq_nil_iff]
    intro f _
    unfold classifyFile
    cases h : dictGet f a
    · rfl
    · simp
  · intro old old' new new' hpo hpn hno hnn
    rw [detect_changes, detect_changes]
    have hkeys : sortKeys ((old.map Prod.fst ++ new.map Prod.fst).dedup) =
        sortKeys ((old'.map Prod.fst ++ new'.map Prod.fst).dedup) := by
      haveI : IsAntisymm (List Char) (fun a b => leChars a b = true) :=
        ⟨fun _ _ => leChars_antisymm⟩
      refine List.eq_of_perm_of_sorted ?_ (sortKeys_sorted _) (sortKeys_sorted _)
      refine (List.perm_ext_iff_of_nodup
        (((sortKeys_perm _).nodup_iff).mpr (List.nodup_dedup _))
        (((sortKeys_perm _).nodup_iff).mpr (List.nodup_dedup _))).mpr ?_
      intro f
      rw [(sortKeys_perm _).mem_iff, (sortKeys_perm _).mem_iff,
        List.mem_dedup, List.mem_dedup, List.mem_append, List.mem_append,
        (hpo.map Prod.fst).mem_iff, (hpn.map Prod.fst).mem_iff]
    rw [hkeys]
    refine List.filterMap_congr ?_
    intro f _
    unfold classifyFile
    rw [dictGet_perm hpo hno f, dictGet_perm hpn hnn f]

/-- Witness for C3: the spec's scenario, the self-diff, and reorder
invariance at concrete inputs. -/
theorem c3_detect_changes_classification_witness :
    detect_changes [(("a.md").data, ("X").data)]
        [(("a.md").data, ("Y").data), (("b.md").data, ("Z").data)] =
      [ChangeRecord.updated ("a.md").data ("Y").data,
       ChangeRecord.added ("b.md").data ("Z").data] ∧
    detect_changes [(("a.md").data, ("X").data)] [(("a.md").data, ("X").data)] = [] ∧
    detect_changes [(("a.md").data, ("X").data), (("b.md").data, ("Y").data)]
        [(("a.md").data, ("X").data)] =
      detect_changes [(("b.md").data, ("Y").data), (("a.md").data, ("X").data)]
        [(("a.md").data, ("X").data)] :=
  ⟨by decide, c3_detect_changes_classification.2.2.1 _,
   c3_detect_changes_classification.2.2.2 _ _ _ _ (by decide) (by decide)
     (by decide) (by decide)⟩

/-! ### C2: the visited-set test-and-set -/

theorem runInserts_fold_invariant (us vs : List (List Char)) (n : Nat)
    (hv : vs.Nodup) :
    (us.foldl tryInsert (vs, n)).1.Nodup ∧
    (∀ u, u ∈ (us.foldl tryInsert (vs, n)).1 ↔ u ∈ vs ∨ u ∈ us) ∧
    (us.foldl tryInsert (vs, n)).2 + vs.length =
      n + (us.foldl tryInsert (vs, n)).1.length := by
  induction us generalizing vs n with
  | nil => simp [hv]
  | cons u us ih =>
    rw [List.foldl_cons]
    by_cases hu : u ∈ vs
    · have ht : tryInsert (vs, n) u = (vs, n) := by simp [tryInsert, hu]
      rw [ht]
      obtain ⟨h1, h2, h3⟩ := ih vs n hv
      refine ⟨h1, ?_, h3⟩
      intro w
      rw [h2 w]
      constructor
      · rintro (h | h)
        · exact Or.inl h
        · exact Or.inr (List.mem_cons_of_mem _ h)
      · rintro (h | h)
        · exact Or.inl h
        · rcases List.mem_cons.mp h with rfl | h
          · exact Or.inl hu
          · exact Or.inr h
    · have ht : tryInsert (vs, n) u = (u :: vs, n + 1) := by simp [tryInsert, hu]
      rw [ht]
      obtain ⟨h1, h2, h3⟩ := ih (u :: vs) (n + 1) (List.nodup_cons.mpr ⟨hu, hv⟩)
      refine ⟨h1, ?_, ?_⟩
      · intro w
        rw [h2 w]
        simp only [List.mem_cons]
        tauto
      · rw [List.length_cons] at h3
        omega

/-- C2: under the lock-protected test-and-set, any interleaving of insertion
attempts leaves each URL in the visited set at most once (the set is
duplicate-free and carries exactly the attempted URLs), and the number of
accepted insertions equals the number of distinct attempted URLs; in
particular, any interleaving of `threads` racing workers each inserting the
same duplicate-free URL list yields exactly one accepted insertion per URL. -/
theorem c2_visited_at_most_once :
    (∀ attempts : List (List Char),
      (runInserts attempts).1.Nodup ∧
      (∀ u, u ∈ (runInserts attempts).1 ↔ u ∈ attempts) ∧
      (runInserts attempts).2 = (runInserts attempts).1.length) ∧
    (∀ (threads : Nat) (urls attempts : List (List Char)),
      0 < threads → urls.Nodup →
      List.Perm attempts (List.replicate threads urls).flatten →
      (runInserts attempts).2 = urls.length) := by
  have base : ∀ attempts : List (List Char),
      (runInserts attempts).1.Nodup ∧
      (∀ u, u ∈ (runInserts attempts).1 ↔ u ∈ attempts) ∧
      (runInserts attempts).2 = (runInserts attempts).1.length := by
    intro attempts
    obtain ⟨h1, h2, h3⟩ := runInserts_fold_invariant attempts [] 0 List.nodup_nil
    refine ⟨h1, ?_, ?_⟩
    · intro u
      simp only [runInserts]
      rw [h2 u]
      simp
    · simp only [runInserts] at h3 ⊢
      simpa using h3
  refine ⟨base, ?_⟩
  intro threads urls attempts hpos hnd hperm
  obtain ⟨h1, h2, h3⟩ := base attempts
  have hmem : ∀ u, u ∈ (runInserts attempts).1 ↔ u ∈ urls := by
    intro u
    rw [h2 u, hperm.mem_iff, List.mem_flatten]
    constructor
    · rintro ⟨l, hl, hu⟩
      rw [(List.mem_replicate.mp hl).2] at hu
      exact hu
    · intro hu
      exact ⟨urls, List.mem_replicate.mpr ⟨Nat.pos_iff_ne_zero.mp hpos, rfl⟩, hu⟩
  have hlen : (runInserts attempts).1.length = urls.length :=
    ((List.perm_ext_iff_of_nodup h1 hnd).mpr hmem).length_eq
  rw [h3, hlen]

/-- Witness for C2: two workers racing to insert the same 50 distinct URLs
produce exactly 50 accepted insertions. -/
theorem c2_visited_at_most_once_witness :
    (runInserts (List.replicate 2
      ((List.range 50).map (fun k => List.replicate k 'a'))).flatten).2 = 50 :=
  (c2_visited_at_most_once.2 2
    ((List.range 50).map (fun k => List.replicate k 'a')) _
    (by decide) (by decide) (List.Perm.refl _)).trans (by decide)

/-! ### C1: content-addressed deduplication -/

theorem dictGet_dictInsert_self {α β : Type} [DecidableEq α] (k : α) (v : β)
    (d : List (α × β)) : dictGet k (dictInsert k v d) = some v := by
  induction d with
  | nil => simp [dictInsert, dictGet]
  | cons p rest ih =>
    obtain ⟨k', v'⟩ := p
    by_cases hk : k' = k
    · subst hk
      simp [dictInsert, dictGet]
    · simp [dictInsert, dictGet, hk, ih]

theorem dictGet_dictInsert_ne {α β : Type} [DecidableEq α] {k' k : α} (v : β)
    (d : List (α × β)) (h : k' ≠ k) :
    dictGet k' (dictInsert k v d) = dictGet k' d := by
  have hne : ¬ k = k' := fun hh => h hh.symm
  induction d with
  | nil => simp [dictInsert, dictGet, hne]
  | cons p rest ih =>
    obtain ⟨k0, v0⟩ := p
    by_cases hk : k0 = k
    · subst hk
      simp [dictInsert, dictGet, hne]
    · simp [dictInsert, dictGet, hk, ih]

theorem dictGet_dictInsert_ne_none {α β : Type} [DecidableEq α] {k' : α} (k : α)
    (v : β) (d : List (α × β)) (h : dictGet k' d ≠ none) :
    dictGet k' (dictInsert k v d) ≠ none := by
  by_cases hk : k' = k
  · subst hk
    rw [dictGet_dictInsert_self]
    simp
  · rw [dictGet_dictInsert_ne v d hk]
    exact h

theorem mem_dictInsert {α β : Type} [DecidableEq α] {p : α × β} {k : α} {v : β}
    {d : List (α × β)} (hn : (d.map Prod.fst).Nodup) (h : p ∈ dictInsert k v d) :
    p = (k, v) ∨ (p ∈ d ∧ p.1 ≠ k) := by
  induction d with
  | nil =>
    simp [dictInsert] at h
    exact Or.inl h
  | cons q rest ih =>
    obtain ⟨k0, v0⟩ := q
    rcases List.nodup_cons.mp hn with ⟨hk0, hrest⟩
    by_cases hk : k0 = k
    · subst hk
      rw [dictInsert, if_pos rfl] at h
      rcases List.mem_cons.mp h with rfl | hmem
      · exact Or.inl rfl
      · refine Or.inr ⟨List.mem_cons_of_mem _ hmem, ?_⟩
        intro hpk
        have hfst : p.1 ∈ rest.map Prod.fst := List.mem_map_of_mem Prod.fst hmem
        rw [hpk] at hfst
        exact hk0 hfst
    · rw [dictInsert, if_neg hk] at h
      rcases List.mem_cons.mp h with rfl | hmem
      · exact Or.inr ⟨List.mem_cons_self _ _, hk⟩
      · rcases ih hrest hmem with h' | ⟨hmem', hne⟩
        · exact Or.inl h'
        · exact Or.inr ⟨List.mem_cons_of_mem _ hmem', hne⟩

theorem keys_dictInsert_mem {α β : Type} [DecidableEq α] {k' k : α} {v : β}
    {d : List (α × β)} :
    k' ∈ (dictInsert k v d).map Prod.fst ↔ k' = k ∨ k' ∈ d.map Prod.fst := by
  induction d with
  | nil => simp [dictInsert]
  | cons q rest ih =>
    obtain ⟨k0, v0⟩ := q
    by_cases hk : k0 = k
    · subst hk
      simp [dictInsert]
    · simp only [dictInsert, if_neg hk, List.map_cons, List.mem_cons, ih]
      tauto

theorem keys_dictInsert_nodup {α β : Type} [DecidableEq α] (k : α) (v : β)
    {d : List (α × β)} (h : (d.map Prod.fst).Nodup) :
    ((dictInsert k v d).map Prod.fst).Nodup := by
  induction d with
  | nil => simp [dictInsert]
  | cons q rest ih =>
    obtain ⟨k0, v0⟩ := q
    rcases List.nodup_cons.mp h with ⟨hk0, hrest⟩
    by_cases hk : k0 = k
    · subst hk
      rw [dictInsert, if_pos rfl]
      exact List.nodup_cons.mpr ⟨hk0, hrest⟩
    · rw [dictInsert, if_neg hk]
      refine List.nodup_cons.mpr ⟨?_, ih hrest⟩
      intro hmem
      rcases keys_dictInsert_mem.mp hmem with h' | h'
      · exact hk h'
      · exact hk0 h'

theorem dedupStep_dup {md5 fname : List Char → List Char} {s : CrawlState}
    {url content owner fn : List Char}
    (hget : dictGet (md5 content) s.content_hashes = some owner)
    (halias : dictGet owner s.crawled_urls_to_filenames = some fn) :
    dedupStep md5 fname s url content =
      { s with crawled_urls_to_filenames :=
          dictInsert url fn s.crawled_urls_to_filenames } := by
  unfold dedupStep
  simp only [hget, halias]

theorem dedupStep_dup_noalias {md5 fname : List Char → List Char} {s : CrawlState}
    {url content owner : List Char}
    (hget : dictGet (md5 content) s.content_hashes = some owner)
    (halias : dictGet owner s.crawled_urls_to_filenames = none) :
    dedupStep md5 fname s url content = s := by
  unfold dedupStep
  simp only [hget, halias]

theorem dedupStep_fresh {md5 fname : List Char → List Char} {s : CrawlState}
    {url content : List Char}
    (hget : dictGet (md5 content) s.content_hashes = none) :
    dedupStep md5 fname s url content =
      { s with
        content_hashes := dictInsert (md5 content) url s.content_hashes,
        crawled_files := dictInsert (fname url) content s.crawled_files,
        crawled_urls_to_filenames :=
          dictInsert url (fname url) s.crawled_urls_to_filenames } := by
  unfold dedupStep
  simp only [hget]

theorem dedupStep_inv (md5 fname : List Char → List Char) (s : CrawlState)
    (url content : List Char)
    (h1 : ∀ h u, dictGet h s.content_hashes = some u →
      ∃ fn, dictGet u s.crawled_urls_to_filenames = some fn)
    (h3 : ∀ fn c, (fn, c) ∈ s.crawled_files →
      dictGet (md5 c) s.content_hashes ≠ none)
    (h4 : (s.crawled_files.map Prod.fst).Nodup)
    (h5 : ∀ fn1 c1 fn2 c2, (fn1, c1) ∈ s.crawled_files →
      (fn2, c2) ∈ s.crawled_files → c1 = c2 → fn1 = fn2) :
    (∀ h u, dictGet h (dedupStep md5 fname s url content).content_hashes = some u →
      ∃ fn, dictGet u (dedupStep md5 fname s url content).crawled_urls_to_filenames
        = some fn) ∧
    (∀ fn c, (fn, c) ∈ (dedupStep md5 fname s url content).crawled_files →
      dictGet (md5 c) (dedupStep md5 fname s url content).content_hashes ≠ none) ∧
    ((dedupStep md5 fname s url content).crawled_files.map Prod.fst).Nodup ∧
    (∀ fn1 c1 fn2 c2, (fn1, c1) ∈ (dedupStep md5 fname s url content).crawled_files →
      (fn2, c2) ∈ (dedupStep md5 fname s url content).crawled_files →
      c1 = c2 → fn1 = fn2) := by
  cases hget : dictGet (md5 content) s.content_hashes with
  | some owner =>
    cases halias : dictGet owner s.crawled_urls_to_filenames with
    | some fn =>
      rw [dedupStep_dup hget halias]
      refine ⟨?_, h3, h4, h5⟩
      intro h u hu
      by_cases hu2 : u = url
      · rw [hu2]
        exact ⟨fn, dictGet_dictInsert_self ..⟩
      · rcases h1 h u hu with ⟨fn', hfn'⟩
        refine ⟨fn', ?_⟩
        rw [dictGet_dictInsert_ne _ _ hu2]
        exact hfn'
    | none =>
      rw [dedupStep_dup_noalias hget halias]
      exact ⟨h1, h3, h4, h5⟩
  | none =>
    rw [dedupStep_fresh hget]
    refine ⟨?_, ?_, keys_dictInsert_nodup _ _ h4, ?_⟩
    · intro h u hu
      by_cases hh : h = md5 content
      · subst hh
        rw [dictGet_dictInsert_self] at hu
        injection hu with hu
        subst hu
        exact ⟨fname url, dictGet_dictInsert_self ..⟩
      · rw [dictGet_dictInsert_ne _ _ hh] at hu
        rcases h1 h u hu with ⟨fn', hfn'⟩
        by_cases hu2 : u = url
        · rw [hu2]
          exact ⟨fname url, dictGet_dictInsert_self ..⟩
        · refine ⟨fn', ?_⟩
          rw [dictGet_dictInsert_ne _ _ hu2]
          exact hfn'
    · intro fn c hmem
      rcases mem_dictInsert h4 hmem with heq | ⟨hold, _⟩
      · injection heq with he1 he2
        subst he2
        rw [dictGet_dictInsert_self]
        simp
      · exact dictGet_dictInsert_ne_none _ _ _ (h3 fn c hold)
    · intro fn1 c1 fn2 c2 hm1 hm2 hc
      rcases mem_dictInsert h4 hm1 with he1 | ⟨ho1, hne1⟩ <;>
        rcases mem_dictInsert h4 hm2 with he2 | ⟨ho2, hne2⟩
      · injection he1 with ha1 _
        injection he2 with ha2 _
        rw [ha1, ha2]
      · injection he1 with ha1 hb1
        exfalso
        apply h3 fn2 c2 ho2
        rw [← hc, hb1]
        exact hget
      · injection he2 with ha2 hb2
        exfalso
        apply h3 fn1 c1 ho1
        rw [hc, hb2]
        exact hget
      · exact h5 fn1 c1 fn2 c2 ho1 ho2 hc

theorem runCrawl_inv (md5 fname : List Char → List Char)
    (pages : List (List Char × List Char)) :
    (∀ h u, dictGet h (runCrawl md5 fname pages).content_hashes = some u →
      ∃ fn, dictGet u (runCrawl md5 fname pages).crawled_urls_to_filenames
        = some fn) ∧
    (∀ fn c, (fn, c) ∈ (runCrawl md5 fname pages).crawled_files →
      dictGet (md5 c) (runCrawl md5 fname pages).content_hashes ≠ none) ∧
    ((runCrawl md5 fname pages).crawled_files.map Prod.fst).Nodup ∧
    (∀ fn1 c1 fn2 c2, (fn1, c1) ∈ (runCrawl md5 fname pages).crawled_files →
      (fn2, c2) ∈ (runCrawl md5 fname pages).crawled_files →
      c1 = c2 → fn1 = fn2) := by
  suffices hgen : ∀ (s : CrawlState),
      (∀ h u, dictGet h s.content_hashes = some u →
        ∃ fn, dictGet u s.crawled_urls_to_filenames = some fn) →
      (∀ fn c, (fn, c) ∈ s.crawled_files →
        dictGet (md5 c) s.content_hashes ≠ none) →
      (s.crawled_files.map Prod.fst).Nodup →
      (∀ fn1 c1 fn2 c2, (fn1, c1) ∈ s.crawled_files →
        (fn2, c2) ∈ s.crawled_files → c1 = c2 → fn1 = fn2) →
      (∀ h u, dictGet h (pages.foldl (visitStep md5 fname) s).content_hashes = some u →
        ∃ fn, dictGet u (pages.foldl (visitStep md5 fname) s).crawled_urls_to_filenames
          = some fn) ∧
      (∀ fn c, (fn, c) ∈ (pages.foldl (visitStep md5 fname) s).crawled_files →
        dictGet (md5 c) (pages.foldl (visitStep md5 fname) s).content_hashes ≠ none) ∧
      ((pages.foldl (visitStep md5 fname) s).crawled_files.map Prod.fst).Nodup ∧
      (∀ fn1 c1 fn2 c2,
        (fn1, c1) ∈ (pages.foldl (visitStep md5 fname) s).crawled_files →
        (fn2, c2) ∈ (pages.foldl (visitStep md5 fname) s).crawled_files →
        c1 = c2 → fn1 = fn2) by
    exact hgen initState (by simp [initState, dictGet]) (by simp [initState])
      (by simp [initState]) (by simp [initState])
  induction pages with
  | nil => intro s a b c d; exact ⟨a, b, c, d⟩
  | cons page rest ih =>
    intro s a b c d
    rw [List.foldl_cons]
    have hstep :
        (∀ h u, dictGet h (visitStep md5 fname s page).content_hashes = some u →
          ∃ fn, dictGet u (visitStep md5 fname s page).crawled_urls_to_filenames
            = some fn) ∧
        (∀ fn c', (fn, c') ∈ (visitStep md5 fname s page).crawled_files →
          dictGet (md5 c') (visitStep md5 fname s page).content_hashes ≠ none) ∧
        ((visitStep md5 fname s page).crawled_files.map Prod.fst).Nodup ∧
        (∀ fn1 c1 fn2 c2, (fn1, c1) ∈ (visitStep md5 fname s page).crawled_files →
          (fn2, c2) ∈ (visitStep md5 fname s page).crawled_files →
          c1 = c2 → fn1 = fn2) := by
      unfold visitStep
      split
      · exact ⟨a, b, c, d⟩
      · exact dedupStep_inv md5 fname _ page.1 page.2 a b c d
    exact ih _ hstep.1 hstep.2.1 hstep.2.2.1 hstep.2.2.2

/-- C1: in every run of the dedup engine (any hash and filename assignment,
any page sequence), two distinct filenames of the final `crawled_files`
mapping never hold identical content bytes; whenever a page's content hash
already has an owner, the dedup decision creates no new file and only records
the alias URL → owner's filename; and in the two-page run with byte-identical
content the first URL owns the hash, a single file is created, and the second
URL's alias entry points to the first URL's filename. -/
theorem c1_content_dedup :
    (∀ (md5 fname : List Char → List Char) (pages : List (List Char × List Char))
       (fn1 c1 fn2 c2 : List Char),
       (fn1, c1) ∈ (runCrawl md5 fname pages).crawled_files →
       (fn2, c2) ∈ (runCrawl md5 fname pages).crawled_files →
       fn1 ≠ fn2 → c1 ≠ c2) ∧
    (∀ (md5 fname : List Char → List Char) (pages : List (List Char × List Char))
       (url content owner : List Char),
       dictGet (md5 content) (runCrawl md5 fname pages).content_hashes = some owner →
       ∃ fn, dictGet owner (runCrawl md5 fname pages).crawled_urls_to_filenames
           = some fn ∧
         dedupStep md5 fname (runCrawl md5 fname pages) url content =
           { (runCrawl md5 fname pages) with crawled_urls_to_filenames :=
               (dictInsert url fn
                 (runCrawl md5 fname pages).crawled_urls_to_filenames) }) ∧
    (∀ (md5 fname : List Char → List Char) (u1 u2 c : List Char), u1 ≠ u2 →
       runCrawl md5 fname [(u1, c), (u2, c)] =
         ⟨[u2, u1], [(md5 c, u1)], [(fname u1, c)],
          [(u1, fname u1), (u2, fname u1)]⟩) := by
  refine ⟨?_, ?_, ?_⟩
  · intro md5 fname pages fn1 c1 fn2 c2 hm1 hm2 hne hc
    exact hne ((runCrawl_inv md5 fname pages).2.2.2 fn1 c1 fn2 c2 hm1 hm2 hc)
  · intro md5 fname pages url content owner hown
    rcases (runCrawl_inv md5 fname pages).1 _ _ hown with ⟨fn, hfn⟩
    exact ⟨fn, hfn, dedupStep_dup hown hfn⟩
  · intro md5 fname u1 u2 c hne
    simp [runCrawl, visitStep, dedupStep, initState, dictGet, dictInsert,
      hne, Ne.symm hne]

/-- Witness for C1: a concrete two-page run with identical content. -/
theorem c1_content_dedup_witness :
    runCrawl id id [(("a").data, ("x").data), (("b").data, ("x").data)] =
      ⟨[("b").data, ("a").data], [(("x").data, ("a").data)],
       [(("a").data, ("x").data)],
       [(("a").data, ("a").data), (("b").data, ("a").data)]⟩ :=
  c1_content_dedup.2.2 id id ("a").data ("b").data ("x").data (by decide)

/-! ### C7: fetch failure semantics -/

/-- C7: a page fetch whose attempts all fail retryably is retried exactly up
to the `MAX_RETRY` budget with a one-second backoff per failed attempt and
then returns `None` (here: `none` together with `MAX_RETRY` slept seconds);
a worker task whose fetch returns `None` changes nothing but the visited set
(no content recorded, no hash recorded, no alias recorded, no links
enqueued), and the crawl continues; a URL already in the visited set is a
complete no-op, so a failed URL is never retried within the run. -/
theorem c7_fetch_failure_frame :
    (∀ attempts : Nat → FetchAttempt,
      attempts 1 = FetchAttempt.transient → attempts 2 = FetchAttempt.transient →
      fetch_page_selenium attempts = (none, MAX_RETRY)) ∧
    (∀ (unescape urlHash md5sum handle : List Char → List Char)
       (titleOf : List Char → Option (List Char))
       (fetch : List Char → Option (List Char))
       (hrefsOf : List Char → List (List Char))
       (start_url base_netloc url nurl : List Char) (s : WorkerState),
      normalize_url url start_url = some nurl →
      is_same_domain nurl base_netloc = true →
      nurl ∉ s.crawl.visited →
      looks_like_html nurl = some true →
      fetch nurl = none →
      crawlWorkerStep unescape urlHash md5sum handle titleOf fetch hrefsOf
          start_url base_netloc s url =
        some { s with crawl :=
          { (s.crawl) with visited := (nurl :: s.crawl.visited) } }) ∧
    (∀ (unescape urlHash md5sum handle : List Char → List Char)
       (titleOf : List Char → Option (List Char))
       (fetch : List Char → Option (List Char))
       (hrefsOf : List Char → List (List Char))
       (start_url base_netloc url nurl : List Char) (s : WorkerState),
      normalize_url url start_url = some nurl →
      is_same_domain nurl base_netloc = true →
      nurl ∈ s.crawl.visited →
      crawlWorkerStep unescape urlHash md5sum handle titleOf fetch hrefsOf
          start_url base_netloc s url = some s) := by
  refine ⟨?_, ?_, ?_⟩
  · intro attempts h1 h2
    rw [fetch_page_selenium, fetchLoop]
    norm_num [MAX_RETRY, h1]
    rw [fetchLoop]
    norm_num [MAX_RETRY, h2]
    rw [fetchLoop]
    norm_num [MAX_RETRY]
  · intro unescape urlHash md5sum handle titleOf fetch hrefsOf start_url
      base_netloc url nurl s hnorm hdom hvis hllh hfetch
    unfold crawlWorkerStep
    rw [hnorm]
    simp [hdom, hvis, hllh, hfetch]
  · intro unescape urlHash md5sum handle titleOf fetch hrefsOf start_url
      base_netloc url nurl s hnorm hdom hvis
    unfold crawlWorkerStep
    rw [hnorm]
    simp [hdom, hvis]

/-- Witness for C7: a concrete failing fetch and a concrete failed task. -/
theorem c7_fetch_failure_frame_witness :
    fetch_page_selenium (fun _ => FetchAttempt.transient) = (none, 2) ∧
    crawlWorkerStep id id id id (fun _ => none) (fun _ => none) (fun _ => [])
        ("https://ex.com").data ("ex.com").data ⟨⟨[], [], [], []⟩, []⟩
        ("https://ex.com/p").data =
      some ⟨⟨[("https://ex.com/p").data], [], [], []⟩, []⟩ :=
  ⟨c7_fetch_failure_frame.1 _ rfl rfl,
   c7_fetch_failure_frame.2.1 id id id id (fun _ => none) (fun _ => none)
     (fun _ => []) ("https://ex.com").data ("ex.com").data
     ("https://ex.com/p").data ("https://ex.com/p").data ⟨⟨[], [], [], []⟩, []⟩
     (by decide) (by decide) (by decide) (by decide) rfl⟩

/-! ### C8: post-run cleanup -/

/-- C8: after the cleanup loop, the `.md` files remaining in the output
directory are exactly the keys of the returned `crawled_files` mapping
(given that every key was written to the directory and — as
`url_to_filename` guarantees, second conjunct — every key ends in `.md`);
cleanup only ever deletes, never creates, and never touches non-`.md`
files. -/
theorem c8_cleanup_exact_files :
    (∀ disk savedKeys : List (List Char),
      (∀ f, f ∈ savedKeys → f ∈ disk) →
      (∀ f, f ∈ savedKeys → isMdName f = true) →
      (∀ f, f ∈ cleanupOutputDir disk savedKeys ∧ isMdName f = true ↔
        f ∈ savedKeys)) ∧
    (∀ (unescape urlHash : List Char → List Char) (url : List Char)
       (title : Option (List Char)) (fn : List Char),
      url_to_filename unescape urlHash url title = some fn →
      isMdName fn = true) ∧
    (∀ disk savedKeys f, f ∈ cleanupOutputDir disk savedKeys → f ∈ disk) ∧
    (∀ disk savedKeys f, f ∈ disk → isMdName f = false →
      f ∈ cleanupOutputDir disk savedKeys) := by
  refine ⟨?_, ?_, ?_, ?_⟩
  · intro disk savedKeys hsub hmd2 f
    constructor
    · rintro ⟨hmem, hmd⟩
      rcases List.mem_filter.mp hmem with ⟨_, hcond⟩
      rcases Bool.or_eq_true_iff.mp hcond with h | h
      · rw [hmd] at h
        exact absurd h (by simp)
      · exact List.elem_iff.mp h
    · intro hf
      refine ⟨List.mem_filter.mpr ⟨hsub f hf, ?_⟩, hmd2 f hf⟩
      have hc : savedKeys.contains f = true := List.elem_iff.mpr hf
      rw [hc]
      simp
  · intro unescape urlHash url title fn h
    unfold url_to_filename at h
    cases hp : pyUrlparse url [] with
    | none =>
      rw [hp] at h
      exact absurd h (by simp)
    | some p =>
      rw [hp] at h
      injection h with h
      rw [← h, isMdName]
      have hsplit : ∀ X : List Char,
          pyLower (X ++ (".md").data) = pyLower X ++ (".md").data := by
        intro X
        rw [pyLower, List.map_append]
        rfl
      rw [hsplit]
      exact List.isSuffixOf_iff_suffix.mpr (List.suffix_append _ _)
  · intro disk savedKeys f h
    exact (List.mem_filter.mp h).1
  · intro disk savedKeys f hf hmd
    refine List.mem_filter.mpr ⟨hf, ?_⟩
    rw [hmd]
    simp

/-- Witness for C8: a concrete cleanup and a concrete generated filename. -/
theorem c8_cleanup_exact_files_witness :
    ((("a.md").data ∈ cleanupOutputDir
        [("a.md").data, ("c.txt").data, ("d.md").data] [("a.md").data] ∧
      isMdName ("a.md").data = true) ↔ ("a.md").data ∈ [("a.md").data]) ∧
    isMdName ("p__https://.md").data = true :=
  ⟨c8_cleanup_exact_files.1 [("a.md").data, ("c.txt").data, ("d.md").data]
      [("a.md").data] (by decide) (by decide) (("a.md").data),
   c8_cleanup_exact_files.2.1 id id (("https://ex.com/p").data) none
      (("p__https://.md").data) (by decide)⟩

/-! ### C9: page names depend only on the URL path -/

/-- C9: `get_page_name` is a function of the parsed URL's path component
alone — two URLs with equal paths (arbitrary scheme, authority, query,
fragment) receive the same filename — and the filename is the stripped path
with `/` replaced by `-` plus `.md`, or `index.md` when the stripped path is
empty; URLs differing only in their query string therefore share one output
file (the later write overwriting the earlier). -/
theorem c9_page_name_path_only :
    (∀ u1 u2 p1 p2, pyUrlparse u1 [] = some p1 → pyUrlparse u2 [] = some p2 →
      p1.path = p2.path → get_page_name u1 = get_page_name u2) ∧
    (∀ u p, pyUrlparse u [] = some p →
      get_page_name u = some (if stripSlashBoth p.path = [] then ("index.md").data
        else (stripSlashBoth p.path).map (fun c => if c = '/' then '-' else c)
          ++ (".md").data)) := by
  constructor
  · intro u1 u2 p1 p2 h1 h2 hpath
    unfold get_page_name
    rw [h1, h2]
    simp [hpath]
  · intro u p hp
    unfold get_page_name
    rw [hp]
    by_cases h : stripSlashBoth p.path = []
    · simp [h]
    · simp [h]

/-- Witness for C9: two URLs differing in scheme, authority, query and
fragment but sharing the path `/x/y` map to the same file `x-y.md`. -/
theorem c9_page_name_path_only_witness :
    get_page_name ("https://a.com/x/y?q=1").data =
      get_page_name ("http://b.org/x/y#f").data ∧
    get_page_name ("https://a.com/x/y?q=1").data = some (("x-y.md").data) :=
  ⟨c9_page_name_path_only.1 _ _
      ⟨("https").data, ("a.com").data, ("/x/y").data, [], ("q=1").data, []⟩
      ⟨("http").data, ("b.org").data, ("/x/y").data, [], [], ("f").data⟩
      (by decide) (by decide) rfl,
   by decide⟩

/-! ### C10: filename sanitisation -/

theorem mem_subInvalidAux {c : Char} :
    ∀ (flag : Bool) (l : List Char), c ∈ subInvalidAux flag l →
      isAllowedFilenameChar c = true := by
  intro flag l
  induction l generalizing flag with
  | nil => intro h; simp [subInvalidAux] at h
  | cons x rest ih =>
    intro h
    rw [subInvalidAux] at h
    by_cases hx : isAllowedFilenameChar x
    · rw [if_pos hx] at h
      rcases List.mem_cons.mp h with rfl | h
      · exact hx
      · exact ih false h
    · rw [if_neg hx] at h
      cases flag with
      | true => exact ih true (by simpa using h)
      | false =>
        rcases List.mem_cons.mp (by simpa using h) with rfl | h'
        · decide
        · exact ih true h'

theorem mem_collapseWsAux {c : Char} :
    ∀ (flag : Bool) (l : List Char), c ∈ collapseWsAux flag l →
      c = ' ' ∨ (c ∈ l ∧ pyIsSpace c = false) := by
  intro flag l
  induction l generalizing flag with
  | nil => intro h; simp [collapseWsAux] at h
  | cons x rest ih =>
    intro h
    rw [collapseWsAux] at h
    by_cases hx : pyIsSpace x
    · rw [if_pos hx] at h
      cases flag with
      | true =>
        rcases ih true (by simpa using h) with h' | ⟨hm, hs⟩
        · exact Or.inl h'
        · exact Or.inr ⟨List.mem_cons_of_mem _ hm, hs⟩
      | false =>
        rcases List.mem_cons.mp (by simpa using h) with rfl | h'
        · exact Or.inl rfl
        · rcases ih true h' with h'' | ⟨hm, hs⟩
          · exact Or.inl h''
          · exact Or.inr ⟨List.mem_cons_of_mem _ hm, hs⟩
    · rw [if_neg hx] at h
      rcases List.mem_cons.mp h with rfl | h'
      · cases hxx : pyIsSpace c with
        | true => exact absurd hxx (by simpa using hx)
        | false => exact Or.inr ⟨List.mem_cons_self _ _, rfl⟩
      · rcases ih false h' with h'' | ⟨hm, hs⟩
        · exact Or.inl h''
        · exact Or.inr ⟨List.mem_cons_of_mem _ hm, hs⟩

theorem rstripUnderscores_subset {c : Char} {l : List Char}
    (h : c ∈ rstripUnderscores l) : c ∈ l := by
  rw [rstripUnderscores, List.mem_reverse] at h
  exact (List.mem_reverse).mp ((List.dropWhile_sublist _).subset h)

theorem rstripUnderscores_length_le (l : List Char) :
    (rstripUnderscores l).length ≤ l.length := by
  rw [rstripUnderscores, List.length_reverse]
  calc (l.reverse.dropWhile (· == '_')).length
      ≤ l.reverse.length := (List.dropWhile_sublist _).length_le
    _ = l.length := List.length_reverse l

/-- C10: for every input and positive length bound, `sanitize_filename`
returns a string of length at most the bound whose characters all lie in the
allowed set `A-Za-z0-9-_. ` (space), and the empty input is sanitised exactly
as the string `untitled` would be — for any behaviour of the external
`html.unescape`. -/
theorem c10_sanitize_filename :
    (∀ (unescape : List Char → List Char) (s : List Char) (m : Nat), 0 < m →
      (sanitize_filename unescape s (some m)).length ≤ m) ∧
    (∀ (unescape : List Char → List Char) (s : List Char) (m : Option Nat)
       (c : Char), c ∈ sanitize_filename unescape s m →
      isAllowedFilenameChar c = true) ∧
    (∀ (unescape : List Char → List Char) (m : Option Nat),
      sanitize_filename unescape [] m =
        sanitize_filename unescape ("untitled").data m) := by
  refine ⟨?_, ?_, ?_⟩
  · intro unescape s m hm
    have heq : sanitize_filename unescape s (some m) =
        (if m ≠ 0 ∧ (sanitizeCore unescape s).length > m then
          rstripUnderscores ((sanitizeCore unescape s).take m)
        else sanitizeCore unescape s) := rfl
    rw [heq]
    split
    · calc (rstripUnderscores ((sanitizeCore unescape s).take m)).length
          ≤ ((sanitizeCore unescape s).take m).length :=
            rstripUnderscores_length_le _
        _ ≤ m := by
            rw [List.length_take]
            exact min_le_left _ _
    · next h =>
      rw [not_and_or] at h
      rcases h with h | h
      · exact absurd (by omega : m ≠ 0) h
      · omega
  · intro unescape s m c hc
    have key : ∀ x : List Char, c ∈ subInvalid x → isAllowedFilenameChar c = true :=
      fun x h => mem_subInvalidAux false x h
    cases m with
    | none => exact key _ hc
    | some mv =>
      have heq : sanitize_filename unescape s (some mv) =
          (if mv ≠ 0 ∧ (sanitizeCore unescape s).length > mv then
            rstripUnderscores ((sanitizeCore unescape s).take mv)
          else sanitizeCore unescape s) := rfl
      rw [heq] at hc
      split at hc
      · exact key _ (List.take_subset _ _ (rstripUnderscores_subset hc))
      · exact key _ hc
  · intro unescape m
    rfl

/-- Witness for C10: length bound, charset, the empty-input rule, and the
collapse of a disallowed run to one underscore, at concrete inputs. -/
theorem c10_sanitize_filename_witness :
    (sanitize_filename id ("x y<z>!w").data (some 5)).length ≤ 5 ∧
    sanitize_filename id [] (some 200) =
      sanitize_filename id ("untitled").data (some 200) ∧
    sanitize_filename id ("a<>?b").data (some 200) = ("a_b").data :=
  ⟨c10_sanitize_filename.1 id ("x y<z>!w").data 5 (by decide),
   c10_sanitize_filename.2.2 id (some 200),
   by decide⟩

/-! ### C4: the scope filter -/

theorem path_allowed_iff (block allow : List (List Char)) (path : List Char) :
    path_allowed block allow path = true ↔
      ((∀ bp ∈ block, bp = [] ∨
          bp.isPrefixOf (if path.take 1 = ['/'] then path else '/' :: path)
            = false) ∧
       (allow = [] ∨ ∃ ap ∈ allow,
          ap.isPrefixOf (if path.take 1 = ['/'] then path else '/' :: path)
            = true)) := by
  unfold path_allowed
  generalize (if path.take 1 = ['/'] then path else '/' :: path) = q
  by_cases hb : block.any (fun b => b ≠ [] && b.isPrefixOf q) = true
  · rw [if_pos hb]
    simp only [Bool.false_eq_true, false_iff, not_and_or]
    left
    intro hall
    rcases List.any_eq_true.mp hb with ⟨bp, hmem, hcond⟩
    rcases Bool.and_eq_true_iff.mp hcond with ⟨h1, h2⟩
    rcases hall bp hmem with h | h
    · rw [h] at h1
      simp at h1
    · rw [h] at h2
      exact Bool.false_ne_true h2
  · rw [if_neg hb]
    have hall : ∀ bp ∈ block, bp = [] ∨ bp.isPrefixOf q = false := by
      intro bp hmem
      by_cases he : bp = []
      · exact Or.inl he
      · right
        cases hpf : bp.isPrefixOf q with
        | false => rfl
        | true =>
          exact absurd (List.any_eq_true.mpr
            ⟨bp, hmem, Bool.and_eq_true_iff.mpr ⟨by simp [he], hpf⟩⟩) hb
    by_cases ha : allow.isEmpty
    · rw [if_pos ha]
      simp only [true_iff]
      exact ⟨hall, Or.inl (List.isEmpty_iff.mp ha)⟩
    · rw [if_neg ha]
      constructor
      · intro hany
        rcases List.any_eq_true.mp hany with ⟨ap, hmem, hpf⟩
        exact ⟨hall, Or.inr ⟨ap, hmem, hpf⟩⟩
      · rintro ⟨_, h | ⟨ap, hmem, hpf⟩⟩
        · exact absurd (List.isEmpty_iff.mpr h) ha
        · exact List.any_eq_true.mpr ⟨ap, hmem, hpf⟩

theorem is_same_domain_iff {url base_netloc : List Char} {p : ParseResult}
    (hp : pyUrlparse url [] = some p) :
    is_same_domain url base_netloc = true ↔ p.netloc = base_netloc := by
  unfold is_same_domain
  rw [hp]
  simp

theorem looks_like_html_eq {url : List Char} {p : ParseResult}
    (hp : pyUrlparse url [] = some p) :
    looks_like_html url =
      some (SKIP_EXTENSIONS.all (fun e => !e.isSuffixOf (pyLower p.path))) := by
  unfold looks_like_html
  rw [hp]

/-- C4: the scope filter admits a canonical URL exactly when all four checks
pass: (a) the parsed authority equals the origin authority exactly, (b) the
slash-normalised path starts with no non-empty blocklist prefix, (c) the
allowlist is empty or some allowlist entry prefixes the path, and (d) no
skip-list extension is a suffix of the lowercased path. -/
theorem c4_scope_filter_conjunction :
    ∀ (block allow : List (List Char)) (url base_netloc : List Char)
      (b : Bool) (p : ParseResult),
      pyUrlparse url [] = some p →
      scope_admit block allow url base_netloc = some b →
      (b = true ↔
        (p.netloc = base_netloc ∧
         (∀ bp ∈ block, bp = [] ∨
            bp.isPrefixOf (if (if p.path = [] then ['/'] else p.path).take 1
                = ['/'] then (if p.path = [] then ['/'] else p.path)
              else '/' :: (if p.path = [] then ['/'] else p.path)) = false) ∧
         (allow = [] ∨ ∃ ap ∈ allow,
            ap.isPrefixOf (if (if p.path = [] then ['/'] else p.path).take 1
                = ['/'] then (if p.path = [] then ['/'] else p.path)
              else '/' :: (if p.path = [] then ['/'] else p.path)) = true) ∧
         (∀ ext ∈ SKIP_EXTENSIONS, ext.isSuffixOf (pyLower p.path) = false))) := by
  intro block allow url base_netloc b p hp hadmit
  unfold scope_admit at hadmit
  by_cases hd : is_same_domain url base_netloc = true
  · rw [if_neg (by simp [hd]), hp] at hadmit
    simp only [] at hadmit
    by_cases hpa : path_allowed block allow (if p.path = [] then ['/'] else p.path)
        = true
    · rw [if_neg (by simp [hpa]), looks_like_html_eq hp] at hadmit
      injection hadmit with hadmit
      subst hadmit
      constructor
      · intro hall
        refine ⟨(is_same_domain_iff hp).mp hd, (path_allowed_iff _ _ _).mp hpa
          |>.1, ((path_allowed_iff _ _ _).mp hpa).2, ?_⟩
        intro ext hmem
        have := List.all_eq_true.mp hall ext hmem
        cases hof : ext.isSuffixOf (pyLower p.path) with
        | false => rfl
        | true =>
          rw [hof] at this
          exact absurd this (by simp)
      · rintro ⟨_, _, _, hext⟩
        refine List.all_eq_true.mpr ?_
        intro ext hmem
        rw [hext ext hmem]
        rfl
    · rw [if_pos (by simp [hpa])] at hadmit
      injection hadmit with hadmit
      subst hadmit
      simp only [Bool.false_eq_true, false_iff]
      rintro ⟨_, h2, h3, _⟩
      exact hpa ((path_allowed_iff _ _ _).mpr ⟨h2, h3⟩)
  · rw [if_pos (by simp [hd])] at hadmit
    injection hadmit with hadmit
    subst hadmit
    simp only [Bool.false_eq_true, false_iff, not_and_or]
    left
    exact fun hn => hd ((is_same_domain_iff hp).mpr hn)

/-- Witness for C4: the spec's scenario — origin `ex.com` with blocklist
`["/admin"]` rejects `/admin/x` and admits `/blog/x`, whose authority check
is extracted through the characterisation theorem. -/
theorem c4_scope_filter_conjunction_witness :
    scope_admit [("/admin").data] [] ("https://ex.com/blog/x").data
        ("ex.com").data = some true ∧
    scope_admit [("/admin").data] [] ("https://ex.com/admin/x").data
        ("ex.com").data = some false ∧
    (ParseResult.mk ("https").data ("ex.com").data ("/blog/x").data [] []
        []).netloc = ("ex.com").data :=
  ⟨by decide, by decide,
   ((c4_scope_filter_conjunction [("/admin").data] []
      ("https://ex.com/blog/x").data ("ex.com").data true
      ⟨("https").data, ("ex.com").data, ("/blog/x").data, [], [], []⟩
      (by decide) (by decide)).mp rfl).1⟩

/-! ### C5/C6 support: membership facts for the URL model -/

theorem not_mem_takeWhile_ne (c : Char) (l : List Char) :
    c ∉ l.takeWhile (· != c) := by
  intro h
  have := List.mem_takeWhile_imp h
  simp at this

theorem takeWhile_ne_of_not_mem {c : Char} {l : List Char} (h : c ∉ l) :
    l.takeWhile (· != c) = l := by
  induction l with
  | nil => rfl
  | cons x rest ih =>
    have hx : (x != c) = true :=
      bne_iff_ne.mpr (fun he => h (he ▸ List.mem_cons_self x rest))
    rw [@List.takeWhile_cons_of_pos _ (fun y => y != c) x rest hx,
      ih (fun hm => h (List.mem_cons_of_mem _ hm))]

theorem dropWhile_ne_of_not_mem {c : Char} {l : List Char} (h : c ∉ l) :
    l.dropWhile (· != c) = [] := by
  induction l with
  | nil => rfl
  | cons x rest ih =>
    have hx : (x != c) = true :=
      bne_iff_ne.mpr (fun he => h (he ▸ List.mem_cons_self x rest))
    rw [@List.dropWhile_cons_of_pos _ (fun y => y != c) x rest hx,
      ih (fun hm => h (List.mem_cons_of_mem _ hm))]

theorem splitOnce_of_not_mem {c : Char} {l : List Char} (h : c ∉ l) :
    splitOnce c l = (l, []) := by
  rw [splitOnce, takeWhile_ne_of_not_mem h, dropWhile_ne_of_not_mem h]
  rfl

theorem splitOnce_fst_subset {c x : Char} {l : List Char}
    (h : x ∈ (splitOnce c l).1) : x ∈ l :=
  (List.takeWhile_sublist _).subset h

theorem splitOnce_snd_subset {c x : Char} {l : List Char}
    (h : x ∈ (splitOnce c l).2) : x ∈ l :=
  (List.dropWhile_sublist _).subset (List.drop_subset 1 _ h)

theorem not_mem_splitOnce_fst (c : Char) (l : List Char) :
    c ∉ (splitOnce c l).1 :=
  not_mem_takeWhile_ne c l

theorem sanitizeUrl_subset {x : Char} {l : List Char} (h : x ∈ sanitizeUrl l) :
    x ∈ l :=
  (List.dropWhile_sublist _).subset (List.mem_of_mem_filter h)

theorem sanitizeSchemeArg_subset {x : Char} {l : List Char}
    (h : x ∈ sanitizeSchemeArg l) : x ∈ l := by
  rw [sanitizeSchemeArg] at h
  have h1 := List.mem_of_mem_filter h
  rw [List.mem_reverse] at h1
  have h2 := (List.dropWhile_sublist _).subset h1
  rw [List.mem_reverse] at h2
  exact (List.dropWhile_sublist _).subset h2

theorem asciiLowerChar_eq_hash {c : Char} (h : asciiLowerChar c = '#') :
    c = '#' := by
  unfold asciiLowerChar at h
  split at h <;> simp_all

theorem isSchemeChar_asciiLowerChar {c : Char} (h : isSchemeChar c = true) :
    isSchemeChar (asciiLowerChar c) = true := by
  unfold asciiLowerChar
  split <;> first | decide | exact h

theorem rstripSlashes_subset {x : Char} {l : List Char}
    (h : x ∈ rstripSlashes l) : x ∈ l := by
  rw [rstripSlashes, List.mem_reverse] at h
  have h2 := (List.dropWhile_sublist _).subset h
  rw [List.mem_reverse] at h2
  exact h2

theorem head_dropWhile_false {p : Char → Bool} :
    ∀ {l : List Char} {a : Char}, (l.dropWhile p).head? = some a → p a = false := by
  intro l
  induction l with
  | nil => intro a h; simp at h
  | cons x rest ih =>
    intro a h
    by_cases hx : p x = true
    · rw [List.dropWhile_cons_of_pos hx] at h
      exact ih h
    · rw [List.dropWhile_cons_of_neg hx] at h
      injection h with h
      rw [← h]
      cases hb : p x with
      | false => rfl
      | true => exact absurd hb hx

theorem endsWithSlash_rstripSlashes (l : List Char) :
    endsWithSlash (rstripSlashes l) = false := by
  rw [endsWithSlash, rstripSlashes, List.getLastD_eq_getLast?, List.getLast?_reverse]
  cases hh : (l.reverse.dropWhile (· == '/')).head? with
  | none => rfl
  | some a =>
    have := head_dropWhile_false hh
    simp only [Option.getD_some]
    simpa using this

theorem splitScheme_fst_mem {u d : List Char} {c : Char}
    (h : c ∈ (splitScheme u d).1) : c ∈ d ∨ isSchemeChar c = true := by
  cases hfi : u.findIdx? (· == ':') with
  | none =>
    simp only [splitScheme, hfi] at h
    exact Or.inl h
  | some i =>
    simp only [splitScheme, hfi] at h
    split at h
    · next hcond =>
      rcases List.mem_map.mp h with ⟨c', hc', rfl⟩
      exact Or.inr (isSchemeChar_asciiLowerChar
        (List.all_eq_true.mp hcond.2.2 c' hc'))
    · exact Or.inl h

theorem splitScheme_snd_subset {u d : List Char} {c : Char}
    (h : c ∈ (splitScheme u d).2) : c ∈ u := by
  cases hfi : u.findIdx? (· == ':') with
  | none =>
    simp only [splitScheme, hfi] at h
    exact h
  | some i =>
    simp only [splitScheme, hfi] at h
    split at h
    · exact List.drop_subset _ _ h
    · exact h

theorem splitNetloc_fst_not_hash (rest : List Char) :
    '#' ∉ (splitNetloc rest).1 := by
  unfold splitNetloc
  split
  · intro h
    have := List.mem_takeWhile_imp h
    simp [isNotNetlocDelim] at this
  · simp

theorem splitNetloc_snd_subset {rest : List Char} {c : Char}
    (h : c ∈ (splitNetloc rest).2) : c ∈ rest := by
  unfold splitNetloc at h
  split at h
  · exact List.drop_subset _ _ ((List.dropWhile_sublist _).subset h)
  · exact h

theorem mem_pySplit_subset {sep : Char} : ∀ {l s : List Char},
    s ∈ pySplit sep l → ∀ {x : Char}, x ∈ s → x ∈ l := by
  intro l
  induction l with
  | nil =>
    intro s hs x hx
    simp only [pySplit, List.mem_singleton] at hs
    subst hs
    simp at hx
  | cons c rest ih =>
    intro s hs x hx
    rw [pySplit] at hs
    by_cases hc : c = sep
    · rw [if_pos hc] at hs
      rcases List.mem_cons.mp hs with rfl | hs'
      · simp at hx
      · exact List.mem_cons_of_mem _ (ih hs' hx)
    · rw [if_neg hc] at hs
      cases hsp : pySplit sep rest with
      | nil =>
        rw [hsp] at hs
        rcases List.mem_singleton.mp hs with rfl
        rcases List.mem_singleton.mp hx with rfl
        exact List.mem_cons_self _ _
      | cons g gs =>
        rw [hsp] at hs
        rcases List.mem_cons.mp hs with rfl | hs'
        · rcases List.mem_cons.mp hx with rfl | hx'
          · exact List.mem_cons_self _ _
          · exact List.mem_cons_of_mem _
              (ih (hsp ▸ List.mem_cons_self g gs) hx')
        · exact List.mem_cons_of_mem _
            (ih (hsp ▸ List.mem_cons_of_mem g hs') hx)

theorem mem_joinWith {sep : Char} : ∀ {parts : List (List Char)} {x : Char},
    x ∈ joinWith sep parts → x = sep ∨ ∃ s ∈ parts, x ∈ s := by
  intro parts
  induction parts with
  | nil =>
    intro x hx
    simp [joinWith] at hx
  | cons a rest ih =>
    intro x hx
    cases rest with
    | nil =>
      exact Or.inr ⟨a, List.mem_cons_self _ _, by simpa [joinWith] using hx⟩
    | cons b rest2 =>
      rw [joinWith] at hx
      rcases List.mem_append.mp hx with h | h
      · exact Or.inr ⟨a, List.mem_cons_self _ _, h⟩
      · rcases List.mem_cons.mp h with rfl | h'
        · exact Or.inl rfl
        · rcases ih h' with h'' | ⟨s, hs, hxs⟩
          · exact Or.inl h''
          · exact Or.inr ⟨s, List.mem_cons_of_mem _ hs, hxs⟩

theorem getLastD_mem_of_ne_nil {α : Type} {l : List α} {d : α} (h : l ≠ []) :
    l.getLastD d ∈ l := by
  rw [List.getLastD_eq_getLast?]
  cases hg : l.getLast? with
  | none => exact absurd (List.getLast?_eq_none_iff.mp hg) h
  | some a => simpa using List.mem_of_mem_getLast? hg

theorem mem_keepEndsFilter : ∀ {l : List (List Char)} {s : List Char},
    s ∈ keepEndsFilter l → s ∈ l := by
  intro l s h
  match l with
  | [] => simp [keepEndsFilter] at h
  | [x] => simpa [keepEndsFilter] using h
  | x :: y :: rest =>
    rw [keepEndsFilter] at h
    rcases List.mem_cons.mp h with rfl | h'
    · exact List.mem_cons_self _ _
    · rcases List.mem_append.mp h' with h2 | h2
      · exact List.mem_cons_of_mem _
          ((List.dropLast_sublist _).subset (List.mem_of_mem_filter h2))
      · rw [List.mem_singleton.mp h2]
        exact List.mem_cons_of_mem _ (getLastD_mem_of_ne_nil (by simp))

theorem mem_resolveSegments : ∀ {segs acc : List (List Char)} {s : List Char},
    s ∈ resolveSegments acc segs → s ∈ acc ∨ s ∈ segs := by
  intro segs
  induction segs with
  | nil =>
    intro acc s h
    exact Or.inl (by simpa [resolveSegments] using h)
  | cons t rest ih =>
    intro acc s h
    rw [resolveSegments] at h
    split at h
    · rcases ih h with h' | h'
      · exact Or.inl ((List.dropLast_sublist _).subset h')
      · exact Or.inr (List.mem_cons_of_mem _ h')
    · split at h
      · rcases ih h with h' | h'
        · exact Or.inl h'
        · exact Or.inr (List.mem_cons_of_mem _ h')
      · rcases ih h with h' | h'
        · rcases List.mem_append.mp h' with h2 | h2
          · exact Or.inl h2
          · rw [List.mem_singleton.mp h2]
            exact Or.inr (List.mem_cons_self _ _)
        · exact Or.inr (List.mem_cons_of_mem _ h')

theorem pySplitparams_fst_subset {p : List Char} {c : Char}
    (h : c ∈ (pySplitparams p).1) : c ∈ p := by
  unfold pySplitparams at h
  split at h <;> split at h <;>
    first
    | exact List.take_subset _ _ h
    | exact h

theorem pySplitparams_snd_subset {p : List Char} {c : Char}
    (h : c ∈ (pySplitparams p).2) : c ∈ p := by
  unfold pySplitparams at h
  split at h <;> split at h <;>
    first
    | exact List.drop_subset _ _ h
    | simp at h

theorem pyUrlsplit_no_hash {url d : List Char} {r : SplitResult}
    (hd : '#' ∉ d) (h : pyUrlsplit url d = some r) :
    '#' ∉ r.scheme ∧ '#' ∉ r.netloc ∧ '#' ∉ r.path ∧ '#' ∉ r.query := by
  simp only [pyUrlsplit] at h
  split at h
  · exact absurd h (by simp)
  · injection h with h
    subst h
    refine ⟨?_, splitNetloc_fst_not_hash _, ?_, ?_⟩
    · intro hc
      rcases splitScheme_fst_mem hc with h' | h'
      · exact hd (sanitizeSchemeArg_subset h')
      · exact absurd h' (by decide)
    · intro hc
      exact not_mem_splitOnce_fst '#' _ (splitOnce_fst_subset hc)
    · intro hc
      exact not_mem_splitOnce_fst '#' _ (splitOnce_snd_subset hc)

theorem pyUrlsplit_fragment_empty {url d : List Char} {r : SplitResult}
    (hu : '#' ∉ url) (h : pyUrlsplit url d = some r) : r.fragment = [] := by
  simp only [pyUrlsplit] at h
  split at h
  · exact absurd h (by simp)
  · injection h with h
    subst h
    have hnp : '#' ∉ (splitNetloc (splitScheme (sanitizeUrl url)
        (sanitizeSchemeArg d)).2).2 :=
      fun hc => hu (sanitizeUrl_subset (splitScheme_snd_subset
        (splitNetloc_snd_subset hc)))
    show (splitOnce '#' _).2 = []
    rw [splitOnce_of_not_mem hnp]

theorem pyUrlparse_eq_some {url d : List Char} {p : ParseResult}
    (h : pyUrlparse url d = some p) :
    ∃ r, pyUrlsplit url d = some r ∧ p = paramsSplit r := by
  rw [pyUrlparse] at h
  rcases Option.map_eq_some'.mp h with ⟨r, hr, hp⟩
  exact ⟨r, hr, hp.symm⟩

theorem pyUrlparse_no_hash {url d : List Char} {p : ParseResult}
    (hd : '#' ∉ d) (h : pyUrlparse url d = some p) :
    '#' ∉ p.scheme ∧ '#' ∉ p.netloc ∧ '#' ∉ p.path ∧ '#' ∉ p.params ∧
      '#' ∉ p.query := by
  rcases pyUrlparse_eq_some h with ⟨r, hs, rfl⟩
  obtain ⟨h1, h2, h3, h4⟩ := pyUrlsplit_no_hash hd hs
  unfold paramsSplit
  split
  · exact ⟨h1, h2, fun hc => h3 (pySplitparams_fst_subset hc),
      fun hc => h3 (pySplitparams_snd_subset hc), h4⟩
  · exact ⟨h1, h2, h3, by simp, h4⟩

theorem pyUrlparse_fragment_empty {url d : List Char} {p : ParseResult}
    (hu : '#' ∉ url) (h : pyUrlparse url d = some p) : p.fragment = [] := by
  rcases pyUrlparse_eq_some h with ⟨r, hs, rfl⟩
  have hf := pyUrlsplit_fragment_empty hu hs
  unfold paramsSplit
  split <;> exact hf

theorem pyUrlunsplit_no_hash {scheme netloc path query fragment : List Char}
    (h1 : '#' ∉ scheme) (h2 : '#' ∉ netloc) (h3 : '#' ∉ path)
    (h4 : '#' ∉ query) (h5 : fragment = []) :
    '#' ∉ pyUrlunsplit scheme netloc path query fragment := by
  subst h5
  simp only [pyUrlunsplit]
  split_ifs <;>
    simp_all +decide [List.mem_append, List.mem_cons]

theorem pyUrlunparse_no_hash {p : ParseResult}
    (h1 : '#' ∉ p.scheme) (h2 : '#' ∉ p.netloc) (h3 : '#' ∉ p.path)
    (h3' : '#' ∉ p.params) (h4 : '#' ∉ p.query) (h5 : p.fragment = []) :
    '#' ∉ pyUrlunparse p := by
  unfold pyUrlunparse
  refine pyUrlunsplit_no_hash h1 h2 ?_ h4 h5
  split_ifs
  · intro hc
    rcases List.mem_append.mp hc with h | h
    · exact h3 h
    · rcases List.mem_cons.mp h with h' | h'
      · exact absurd h' (by decide)
      · exact h3' h'
  · exact h3

theorem mem_joinSegments {b u : ParseResult} {s : List Char}
    (h : s ∈ joinSegments b u) :
    s ∈ pySplit '/' b.path ∨ s ∈ pySplit '/' u.path := by
  unfold joinSegments at h
  split at h
  · exact Or.inr h
  · have h2 := mem_keepEndsFilter h
    rcases List.mem_append.mp h2 with h3 | h3
    · left
      split at h3
      · exact List.dropLast_subset _ h3
      · exact h3
    · exact Or.inr h3

theorem joinResolvedPath_no_hash {b u : ParseResult}
    (hb : '#' ∉ b.path) (hu : '#' ∉ u.path) :
    '#' ∉ joinResolvedPath b u := by
  have hseg : ∀ s ∈ joinSegments b u, '#' ∉ s := by
    intro s hs hx
    rcases mem_joinSegments hs with h | h
    · exact hb (mem_pySplit_subset h hx)
    · exact hu (mem_pySplit_subset h hx)
  have key : ∀ R : List (List Char),
      (∀ s ∈ R, s ∈ joinSegments b u ∨ s = []) →
      '#' ∉ (if joinWith '/' R = [] then ['/'] else joinWith '/' R) := by
    intro R hR hmem
    split at hmem
    · exact absurd (List.mem_singleton.mp hmem) (by decide)
    · rcases mem_joinWith hmem with h | ⟨s, hs, hx⟩
      · exact absurd h (by decide)
      · rcases hR s hs with h2 | h2
        · exact hseg s h2 hx
        · subst h2
          exact absurd hx (List.not_mem_nil _)
  intro hmem
  simp only [joinResolvedPath] at hmem
  split at hmem
  · refine key _ ?_ hmem
    intro s hs
    rcases List.mem_append.mp hs with h1 | h1
    · rcases mem_resolveSegments h1 with h2 | h2
      · exact absurd h2 (List.not_mem_nil _)
      · exact Or.inl h2
    · exact Or.inr (List.mem_singleton.mp h1)
  · refine key _ ?_ hmem
    intro s hs
    rcases mem_resolveSegments hs with h2 | h2
    · exact absurd h2 (List.not_mem_nil _)
    · exact Or.inl h2

theorem joinParsed_no_hash {url : List Char} {b u : ParseResult}
    (hurl : '#' ∉ url)
    (hbn : '#' ∉ b.netloc) (hbp : '#' ∉ b.path) (hbm : '#' ∉ b.params)
    (hbq : '#' ∉ b.query)
    (hus : '#' ∉ u.scheme) (hun : '#' ∉ u.netloc) (hup : '#' ∉ u.path)
    (hum : '#' ∉ u.params) (huq : '#' ∉ u.query) (huf : u.fragment = []) :
    '#' ∉ joinParsed url b u := by
  unfold joinParsed
  split
  · exact hurl
  · split
    · exact pyUrlunparse_no_hash hus hun hup hum huq huf
    · split
      · exact pyUrlunparse_no_hash hus
          (by dsimp only; split <;> assumption) hbp hbm
          (by dsimp only; split <;> assumption) huf
      · exact pyUrlunparse_no_hash hus
          (by dsimp only; split <;> assumption)
          (joinResolvedPath_no_hash hbp hup) hum huq huf

/-- `urljoin(base, url)` never reintroduces a fragment: if the url argument
is nonempty and fragment-free, so is the result. -/
theorem pyUrljoin_no_hash {base url r : List Char} (hu : '#' ∉ url)
    (hune : url ≠ []) (h : pyUrljoin base url = some r) : '#' ∉ r := by
  unfold pyUrljoin at h
  by_cases hb : base = []
  · rw [if_pos hb] at h
    injection h with h
    subst h
    exact hu
  · rw [if_neg hb, if_neg hune] at h
    rcases Option.bind_eq_some.mp h with ⟨b, hpb, h2⟩
    rcases Option.map_eq_some'.mp h2 with ⟨u, hpu, hr⟩
    subst hr
    have hbcomp := pyUrlparse_no_hash (List.not_mem_nil _) hpb
    have hucomp := pyUrlparse_no_hash hbcomp.1 hpu
    have huf := pyUrlparse_fragment_empty hu hpu
    exact joinParsed_no_hash hu hbcomp.2.1 hbcomp.2.2.1 hbcomp.2.2.2.1
      hbcomp.2.2.2.2 hucomp.1 hucomp.2.1 hucomp.2.2.1 hucomp.2.2.2.1
      hucomp.2.2.2.2 huf

theorem normReplaceDoc_no_hash {abs1 : List Char} {p : ParseResult}
    (ha : '#' ∉ abs1) (hp : pyUrlparse abs1 [] = some p) :
    '#' ∉ normReplaceDoc abs1 p := by
  obtain ⟨hs, hn, hpa, hpar, hq⟩ := pyUrlparse_no_hash (List.not_mem_nil _) hp
  have hf := pyUrlparse_fragment_empty ha hp
  unfold normReplaceDoc
  split
  · refine pyUrlunparse_no_hash hs hn ?_ hpar hq hf
    dsimp only
    cases hidx : rfindIdx '/' p.path with
    | none => exact List.not_mem_nil _
    | some i => exact fun hx => hpa (List.take_subset _ _ hx)
  · exact ha

theorem normStage2_eq_some {abs2 v : List Char} (h : normStage2 abs2 = some v) :
    v = abs2 ∨ v = rstripSlashes abs2 := by
  unfold normStage2 at h
  split at h
  · rcases Option.map_eq_some'.mp h with ⟨p2, _, hv⟩
    split at hv
    · exact Or.inr hv.symm
    · exact Or.inl hv.symm
  · injection h with h
    exact Or.inl h.symm

theorem normStage2_no_trailing {abs2 v : List Char}
    (h : normStage2 abs2 = some v) (hsl : endsWithSlash v = true) :
    ∃ p2, pyUrlparse v [] = some p2 ∧ v.length ≤ p2.scheme.length + 3 := by
  unfold normStage2 at h
  split at h
  · rcases Option.map_eq_some'.mp h with ⟨p2, hp2, hv⟩
    by_cases hlen : abs2.length > p2.scheme.length + 3
    · rw [if_pos hlen] at hv
      rw [← hv] at hsl
      rw [endsWithSlash_rstripSlashes] at hsl
      exact absurd hsl (by decide)
    · rw [if_neg hlen] at hv
      subst hv
      exact ⟨p2, hp2, Nat.le_of_not_lt hlen⟩
  · injection h with h
    subst h
    exact absurd hsl (by simp_all)

/-- C5 counterexample: three concrete runs of `normalize_url` (src/3.py:125-140)
violating the claimed output invariant.  `normalize_url(" ", "https://ex.com/p#frag")`
returns the base unchanged, fragment included; `normalize_url("https://ex.com/index.html/",
"https://ex.com")` returns a URL that still ends in the default-document name
`index.html` (the suffix test fires only when the path ends exactly in the
document name, not in `index.html/`); and `normalize_url("https://ex.com/a//",
"https://ex.com")` strips both trailing slashes, not a single one. -/
theorem c5_counterexample :
    normalize_url (" ").data ("https://ex.com/p#frag").data
        = some (("https://ex.com/p#frag").data) ∧
      normalize_url ("https://ex.com/index.html/").data ("https://ex.com").data
        = some (("https://ex.com/index.html").data) ∧
      normalize_url ("https://ex.com/a//").data ("https://ex.com").data
        = some (("https://ex.com/a").data) := by
  refine ⟨?_, ?_, ?_⟩ <;> rfl

/-- C5 (amended): when `normalize_url` (src/3.py:125-140) returns a value,
an empty href gives the empty string; and provided the stripped,
fragment-clipped href is nonempty, the result contains no `#` (hence no
fragment), and if it still ends in `/` then the result is no longer than
its scheme plus `://` (a bare or degenerate origin).  The original claim's
stronger guarantees — fragment-freedom for every input, no default-document
suffix, and stripping of exactly one trailing slash — do not hold
(`c5_counterexample`). -/
theorem c5_normalize_invariants {href base v : List Char}
    (h : normalize_url href base = some v) :
    (href = [] → v = []) ∧
    ((pyStrip href).takeWhile (· != '#') ≠ [] →
      '#' ∉ v ∧
        (endsWithSlash v = true →
          ∃ p2, pyUrlparse v [] = some p2 ∧
            v.length ≤ p2.scheme.length + 3)) := by
  constructor
  · intro he
    subst he
    unfold normalize_url at h
    rw [if_pos rfl] at h
    injection h with h
    exact h.symm
  · intro hne
    have hhref : href ≠ [] := fun he => hne (by rw [he]; rfl)
    unfold normalize_url at h
    rw [if_neg hhref] at h
    rcases Option.bind_eq_some.mp h with ⟨abs1, hj, h2⟩
    rcases Option.bind_eq_some.mp h2 with ⟨p, hp, h3⟩
    have hh1 : '#' ∉ (pyStrip href).takeWhile (· != '#') :=
      not_mem_takeWhile_ne '#' (pyStrip href)
    have habs1 : '#' ∉ abs1 := pyUrljoin_no_hash hh1 hne hj
    have habs2 : '#' ∉ normReplaceDoc abs1 p := normReplaceDoc_no_hash habs1 hp
    constructor
    · rcases normStage2_eq_some h3 with hv | hv
      · rw [hv]
        exact habs2
      · rw [hv]
        exact fun hx => habs2 (rstripSlashes_subset hx)
    · exact normStage2_no_trailing h3

/-- C5 amended witness: the invariants instantiated on
`normalize_url("/a/b/index.html#frag", "https://ex.com/c/") = "https://ex.com/a/b"`,
a run that exercises resolution, fragment clipping, default-document
replacement and trailing-slash stripping. -/
theorem c5_normalize_invariants_witness :
    normalize_url ("/a/b/index.html#frag").data ("https://ex.com/c/").data
        = some (("https://ex.com/a/b").data) ∧
      ((("/a/b/index.html#frag").data = [] → ("https://ex.com/a/b").data = []) ∧
        ((pyStrip ("/a/b/index.html#frag").data).takeWhile (· != '#') ≠ [] →
          '#' ∉ ("https://ex.com/a/b").data ∧
            (endsWithSlash ("https://ex.com/a/b").data = true →
              ∃ p2, pyUrlparse ("https://ex.com/a/b").data [] = some p2 ∧
                ("https://ex.com/a/b").data.length ≤ p2.scheme.length + 3))) := by
  have hc : normalize_url ("/a/b/index.html#frag").data ("https://ex.com/c/").data
      = some (("https://ex.com/a/b").data) := by rfl
  exact ⟨hc, c5_normalize_invariants hc⟩

theorem splitScheme_detected {u d1 d2 : List Char}
    (h : (splitScheme u d1).1 ≠ d1) :
    splitScheme u d2 = splitScheme u d1 := by
  unfold splitScheme at h ⊢
  cases hidx : u.findIdx? (· == ':') with
  | none =>
    simp only [hidx] at h
    exact absurd rfl h
  | some i =>
    simp only [hidx] at h ⊢
    by_cases hc : 0 < i ∧ (u.headD ' ').isAlpha ∧ (u.take i).all isSchemeChar
    · rw [if_pos hc, if_pos hc]
    · rw [if_neg hc] at h
      exact absurd rfl h

/-- When `urlsplit` with the empty default yields a nonempty scheme, the
scheme came from the url itself, so the default argument is irrelevant. -/
theorem pyUrlsplit_default_irrelevant {v d : List Char} {r : SplitResult}
    (h : pyUrlsplit v [] = some r) (hs : r.scheme ≠ []) :
    pyUrlsplit v d = some r := by
  simp only [pyUrlsplit] at h ⊢
  have hdet : (splitScheme (sanitizeUrl v) (sanitizeSchemeArg [])).1
      ≠ sanitizeSchemeArg [] := by
    intro hq
    apply hs
    split at h
    · exact absurd h (by simp)
    · injection h with h
      rw [← h]
      exact hq
  rw [splitScheme_detected hdet]
  exact h

theorem pyUrlparse_default_irrelevant {v d : List Char} {p : ParseResult}
    (h : pyUrlparse v [] = some p) (hs : p.scheme ≠ []) :
    pyUrlparse v d = some p := by
  rcases pyUrlparse_eq_some h with ⟨r, hr, rfl⟩
  have hrs : r.scheme ≠ [] := by
    intro hq
    apply hs
    unfold paramsSplit
    split <;> exact hq
  rw [pyUrlparse, pyUrlsplit_default_irrelevant hr hrs]
  rfl

/-- A nonempty URL whose parse has a nonempty scheme in `uses_netloc`, a
nonempty netloc, and which round-trips through `urlunparse`, is a fixed
point of `urljoin` for every empty or parseable base. -/
theorem pyUrljoin_fixed {base v : List Char} {p : ParseResult}
    (hv : v ≠ [])
    (hp : pyUrlparse v [] = some p)
    (hs : p.scheme ≠ [])
    (hnet : p.scheme ∈ usesNetloc) (hn : p.netloc ≠ [])
    (hrt : pyUrlunparse p = v)
    (hbase : base = [] ∨ ∃ pb, pyUrlparse base [] = some pb) :
    pyUrljoin base v = some v := by
  by_cases hb : base = []
  · unfold pyUrljoin
    rw [if_pos hb]
  · rcases hbase with hb2 | ⟨pb, hpb⟩
    · exact absurd hb2 hb
    · have hstep : pyUrljoin base v
          = (pyUrlparse v pb.scheme).map (fun u => joinParsed v pb u) := by
        unfold pyUrljoin
        rw [if_neg hb, if_neg hv, hpb]
        rfl
      have hjoin : joinParsed v pb p = v := by
        unfold joinParsed
        by_cases hrel : p.scheme = pb.scheme ∧ p.scheme ∈ usesRelative
        · rw [if_neg (not_not_intro hrel), if_pos ⟨hnet, hn⟩]
          exact hrt
        · rw [if_pos hrel]
      rw [hstep, pyUrlparse_default_irrelevant hp hs]
      show some (joinParsed v pb p) = some v
      rw [hjoin]

/-- C6 counterexample: `normalize_url` (src/3.py:125-140) is not idempotent.
With base `https://ex.com`, the URL `https://ex.com/index.html/` normalizes
to `https://ex.com/index.html` (the trailing slash hides the
default-document suffix on the first pass), but normalizing that output
again gives `https://ex.com`: the second application changes the result of
the first. -/
theorem c6_counterexample :
    normalize_url ("https://ex.com/index.html/").data ("https://ex.com").data
        = some (("https://ex.com/index.html").data) ∧
      normalize_url ("https://ex.com/index.html").data ("https://ex.com").data
        = some (("https://ex.com").data) ∧
      ("https://ex.com").data ≠ ("https://ex.com/index.html").data := by
  exact ⟨rfl, rfl, by decide⟩

/-- C6 (amended): `normalize_url` is idempotent only on URLs already in
canonical shape.  A nonempty, whitespace-stripped, fragment-free URL whose
parse has a nonempty scheme in `uses_netloc` and a nonempty netloc, which
round-trips through `urlunparse`, whose path does not end in a
default-document name, and which does not end in `/`, is a fixed point of
`normalize_url` for every base that is empty or parseable.  Unrestricted
idempotence fails (`c6_counterexample`). -/
theorem c6_normalize_idempotent_amended {v base : List Char} {p : ParseResult}
    (hv : v ≠ []) (hstrip : pyStrip v = v) (hhash : '#' ∉ v)
    (hp : pyUrlparse v [] = some p) (hs : p.scheme ≠ [])
    (hnet : p.scheme ∈ usesNetloc) (hn : p.netloc ≠ [])
    (hrt : pyUrlunparse p = v)
    (hdoc : endsWithDefaultDoc p.path = false)
    (hsl : endsWithSlash v = false)
    (hbase : base = [] ∨ ∃ pb, pyUrlparse base [] = some pb) :
    normalize_url v base = some v := by
  unfold normalize_url
  rw [if_neg hv]
  have h1 : (pyStrip v).takeWhile (· != '#') = v := by
    rw [hstrip]
    exact takeWhile_ne_of_not_mem hhash
  rw [h1, pyUrljoin_fixed hv hp hs hnet hn hrt hbase]
  show (pyUrlparse v []).bind (fun p0 => normStage2 (normReplaceDoc v p0)) = some v
  rw [hp]
  show normStage2 (normReplaceDoc v p) = some v
  unfold normReplaceDoc
  rw [if_neg (by rw [hdoc]; exact Bool.false_ne_true)]
  unfold normStage2
  rw [if_neg (by rw [hsl]; exact Bool.false_ne_true)]

/-- C6 amended witness: `https://ex.com/a` is in canonical shape and is a
fixed point of `normalize_url` with base `https://ex.com`. -/
theorem c6_normalize_idempotent_amended_witness :
    normalize_url ("https://ex.com/a").data ("https://ex.com").data
      = some (("https://ex.com/a").data) :=
  @c6_normalize_idempotent_amended (("https://ex.com/a").data)
    (("https://ex.com").data)
    ⟨("https").data, ("ex.com").data, ("/a").data, [], [], []⟩
    (by decide) rfl (by decide) rfl (by decide) (by decide) (by decide)
    rfl rfl rfl
    (Or.inr ⟨⟨("https").data, ("ex.com").data, [], [], [], []⟩, rfl⟩)

end Crawler
